import Mathlib

/-!
Verification of the BMSTU tutor-finder repository
(`bmstu_teachers_tool.py`, `teacher_schedule_parser.py`, `app.py`).

Strings are modelled as `List Char` (Lean `String.data`), matching Python's
sequences of Unicode code points.  Python regular-expression operations used by
the source are embedded operationally (leftmost, greedy-with-backtracking
semantics restricted to the concrete patterns appearing in the code).
-/

namespace BMSTU

/-- The set of characters matched by Python's `\s` (for `str` patterns) and
stripped by `str.strip()` / tested by `str.isspace()`. -/
def isPySpace (c : Char) : Bool :=
  (9 ≤ c.toNat && c.toNat ≤ 13) || (28 ≤ c.toNat && c.toNat ≤ 31) ||
  c.toNat == 32 || c.toNat == 133 || c.toNat == 160 || c.toNat == 0x1680 ||
  (0x2000 ≤ c.toNat && c.toNat ≤ 0x200A) || c.toNat == 0x2028 ||
  c.toNat == 0x2029 || c.toNat == 0x202F || c.toNat == 0x205F || c.toNat == 0x3000

/-- `re.sub(r"\s+", " ", s)`: replace every maximal nonempty whitespace run by a
single plain space.  The flag records whether we are inside a whitespace run. -/
def collapseGo : Bool → List Char → List Char
  | _, [] => []
  | inRun, c :: cs =>
    if isPySpace c then
      if inRun then collapseGo true cs else ' ' :: collapseGo true cs
    else c :: collapseGo false cs

/-- Remove a trailing whitespace run (the right half of `str.strip()`). -/
def dropTrail : List Char → List Char
  | [] => []
  | c :: cs =>
    match dropTrail cs with
    | [] => if isPySpace c then [] else [c]
    | r => c :: r

/-- `str.strip()`: drop leading and trailing whitespace. -/
def pyStrip (l : List Char) : List Char :=
  dropTrail (l.dropWhile isPySpace)

/-- `n.replace("Ё", "Е").replace("ё", "е")`, performed characterwise. -/
def yoYe (c : Char) : Char :=
  if c = 'Ё' then 'Е' else if c = 'ё' then 'е' else c

/-- Attempt of the pattern `\s*\.\s*` at the head of `l` (the pattern of
`re.sub(r"\s*\.\s*", ".", n)`).  Succeeds iff the maximal leading whitespace
run is followed by a period; returns the remainder after the greedy trailing
whitespace run. -/
def match3 (l : List Char) : Option (List Char) :=
  match l.dropWhile isPySpace with
  | c :: r => if c == '.' then some (r.dropWhile isPySpace) else none
  | _ => none

/-- Uppercase Cyrillic range `[А-Я]` (U+0410..U+042F); note `Ё` is outside it. -/
def isRuUpper (c : Char) : Bool :=
  0x410 ≤ c.toNat && c.toNat ≤ 0x42F

/-- Attempt of `\s*([А-Я])\.\s*([А-Я])\.` at the head of `l` (the pattern of
`re.sub(r"\s*([А-Я])\.\s*([А-Я])\.", r" \1.\2.", n)`).  Backtracking cannot
shorten the greedy `\s*` runs (a whitespace character is never in `[А-Я]`),
so the attempt is deterministic. -/
def match4 (l : List Char) : Option (Char × Char × List Char) :=
  match l.dropWhile isPySpace with
  | a :: d1 :: r =>
    if isRuUpper a && (d1 == '.') then
      match r.dropWhile isPySpace with
      | b :: d2 :: r2 =>
        if isRuUpper b && (d2 == '.') then some (a, b, r2) else none
      | _ => none
    else none
  | _ => none

/-- Fuel-indexed engine for `re.sub(r"\s*\.\s*", ".", n)`: scan left to right,
replacing each nonoverlapping leftmost match by a single period. -/
def sub3F : Nat → List Char → List Char
  | 0, _ => []
  | _ + 1, [] => []
  | f + 1, c :: cs =>
    match match3 (c :: cs) with
    | some r => '.' :: sub3F f r
    | none => c :: sub3F f cs

/-- Fuel-indexed engine for `re.sub(r"\s*([А-Я])\.\s*([А-Я])\.", r" \1.\2.", n)`. -/
def sub4F : Nat → List Char → List Char
  | 0, _ => []
  | _ + 1, [] => []
  | f + 1, c :: cs =>
    match match4 (c :: cs) with
    | some (a, b, r) => ' ' :: a :: '.' :: b :: '.' :: sub4F f r
    | none => c :: sub4F f cs

/-- `re.sub(r"\s*\.\s*", ".", n)`. -/
def sub3 (l : List Char) : List Char := sub3F l.length l

/-- `re.sub(r"\s*([А-Я])\.\s*([А-Я])\.", r" \1.\2.", n)`. -/
def sub4 (l : List Char) : List Char := sub4F l.length l

/-- `normalize_name` from `bmstu_teachers_tool.py`, on character lists:
whitespace collapse and strip, yo-to-ye replacement, removal of whitespace
around periods, re-spacing of the initials block. -/
def normList (l : List Char) : List Char :=
  sub4 (sub3 ((pyStrip (collapseGo false l)).map yoYe))

/-- `normalize_name` from `bmstu_teachers_tool.py`. -/
def normalize_name (s : String) : String :=
  String.mk (normList s.data)

theorem match3_some_length {l r : List Char} (h : match3 l = some r) :
    r.length + 1 ≤ l.length := by
  unfold match3 at h
  rcases hd : l.dropWhile isPySpace with _ | ⟨c, t⟩ <;> rw [hd] at h
  · exact absurd h (by simp)
  · by_cases hc : c == '.'
    · simp [hc] at h
      subst h
      have h1 : (l.dropWhile isPySpace).length ≤ l.length :=
        (List.dropWhile_suffix _).length_le
      have h2 : (t.dropWhile isPySpace).length ≤ t.length :=
        (List.dropWhile_suffix _).length_le
      rw [hd] at h1
      simp only [List.length_cons] at h1
      omega
    · simp [hc] at h

theorem match4_some_length {l : List Char} {a b : Char} {r : List Char}
    (h : match4 l = some (a, b, r)) : r.length + 1 ≤ l.length := by
  unfold match4 at h
  rcases hd : l.dropWhile isPySpace with _ | ⟨c, t⟩ <;> rw [hd] at h
  · exact absurd h (by simp)
  · rcases t with _ | ⟨c2, t2⟩
    · exact absurd h (by simp)
    · by_cases hu : isRuUpper c && (c2 == '.')
      · simp only [hu, if_true] at h
        rcases hd2 : t2.dropWhile isPySpace with _ | ⟨e, u⟩ <;> simp [hd2] at h
        rcases u with _ | ⟨e2, u2⟩
        · simp at h
        · simp at h
          obtain ⟨-, -, -, hr⟩ := h
          subst hr
          have h1 : (l.dropWhile isPySpace).length ≤ l.length :=
            (List.dropWhile_suffix _).length_le
          have h2 : (t2.dropWhile isPySpace).length ≤ t2.length :=
            (List.dropWhile_suffix _).length_le
          rw [hd] at h1
          rw [hd2] at h2
          simp only [List.length_cons] at h1 h2
          omega
      · simp [hu] at h

theorem sub3F_cons (f : Nat) (c : Char) (cs : List Char) :
    sub3F (f + 1) (c :: cs) = match match3 (c :: cs) with
      | some r => '.' :: sub3F f r
      | none => c :: sub3F f cs := rfl

theorem sub4F_cons (f : Nat) (c : Char) (cs : List Char) :
    sub4F (f + 1) (c :: cs) = match match4 (c :: cs) with
      | some (a, b, r) => ' ' :: a :: '.' :: b :: '.' :: sub4F f r
      | none => c :: sub4F f cs := rfl

theorem sub3F_fuel : ∀ (f g : Nat) (l : List Char), l.length ≤ f → l.length ≤ g →
    sub3F f l = sub3F g l := by
  intro f
  induction f with
  | zero =>
    intro g l hf hg
    have : l = [] := List.length_eq_zero.mp (Nat.le_zero.mp hf)
    subst this
    cases g <;> rfl
  | succ f ih =>
    intro g l hf hg
    match l with
    | [] => cases g <;> rfl
    | c :: cs =>
      simp only [List.length_cons] at hf hg
      cases g with
      | zero => omega
      | succ g =>
        cases h : match3 (c :: cs) with
        | some r =>
          have hr : r.length + 1 ≤ cs.length + 1 := match3_some_length h
          rw [sub3F_cons, sub3F_cons, h]
          exact congrArg ('.' :: ·) (ih g r (by omega) (by omega))
        | none =>
          rw [sub3F_cons, sub3F_cons, h]
          exact congrArg (c :: ·) (ih g cs (by omega) (by omega))

theorem sub4F_fuel : ∀ (f g : Nat) (l : List Char), l.length ≤ f → l.length ≤ g →
    sub4F f l = sub4F g l := by
  intro f
  induction f with
  | zero =>
    intro g l hf hg
    have : l = [] := List.length_eq_zero.mp (Nat.le_zero.mp hf)
    subst this
    cases g <;> rfl
  | succ f ih =>
    intro g l hf hg
    match l with
    | [] => cases g <;> rfl
    | c :: cs =>
      simp only [List.length_cons] at hf hg
      cases g with
      | zero => omega
      | succ g =>
        cases h : match4 (c :: cs) with
        | some x =>
          obtain ⟨a, b, r⟩ := x
          have hr : r.length + 1 ≤ cs.length + 1 := match4_some_length h
          rw [sub4F_cons, sub4F_cons, h]
          exact congrArg (' ' :: a :: '.' :: b :: '.' :: ·) (ih g r (by omega) (by omega))
        | none =>
          rw [sub4F_cons, sub4F_cons, h]
          exact congrArg (c :: ·) (ih g cs (by omega) (by omega))

theorem sub3_nil : sub3 [] = [] := rfl

theorem sub3_match {c : Char} {cs r : List Char} (h : match3 (c :: cs) = some r) :
    sub3 (c :: cs) = '.' :: sub3 r := by
  have hr : r.length ≤ cs.length := by
    have := match3_some_length h; simp only [List.length_cons] at this; omega
  show sub3F (c :: cs).length (c :: cs) = _
  simp only [List.length_cons]
  rw [sub3F_cons, h]
  exact congrArg ('.' :: ·) (sub3F_fuel cs.length r.length r hr (le_refl _))

theorem sub3_copy {c : Char} {cs : List Char} (h : match3 (c :: cs) = none) :
    sub3 (c :: cs) = c :: sub3 cs := by
  show sub3F (c :: cs).length (c :: cs) = _
  simp only [List.length_cons]
  rw [sub3F_cons, h]
  rfl

theorem sub4_nil : sub4 [] = [] := rfl

theorem sub4_match {c : Char} {cs : List Char} {a b : Char} {r : List Char}
    (h : match4 (c :: cs) = some (a, b, r)) :
    sub4 (c :: cs) = ' ' :: a :: '.' :: b :: '.' :: sub4 r := by
  have hr : r.length ≤ cs.length := by
    have := match4_some_length h; simp only [List.length_cons] at this; omega
  show sub4F (c :: cs).length (c :: cs) = _
  simp only [List.length_cons]
  rw [sub4F_cons, h]
  exact congrArg (' ' :: a :: '.' :: b :: '.' :: ·)
    (sub4F_fuel cs.length r.length r hr (le_refl _))

theorem sub4_copy {c : Char} {cs : List Char} (h : match4 (c :: cs) = none) :
    sub4 (c :: cs) = c :: sub4 cs := by
  show sub4F (c :: cs).length (c :: cs) = _
  simp only [List.length_cons]
  rw [sub4F_cons, h]
  rfl

example : normalize_name "  Иванов   И. О. " = "Иванов И.О." := by decide
example : normalize_name "Семёнов С.С." = "Семенов С.С." := by decide
example : normalize_name "И.О." = " И.О." := by decide

/-! ### Character-class facts -/

theorem isPySpace_sp : isPySpace ' ' = true := by decide

theorem not_space_of_isRuUpper {c : Char} (h : isRuUpper c = true) :
    isPySpace c = false := by
  simp only [isRuUpper, Bool.and_eq_true, decide_eq_true_eq] at h
  rw [← Bool.not_eq_true]
  intro hws
  simp only [isPySpace, Bool.or_eq_true, Bool.and_eq_true, decide_eq_true_eq,
    beq_iff_eq] at hws
  omega

theorem ne_dot_of_isRuUpper {c : Char} (h : isRuUpper c = true) : c ≠ '.' := by
  intro he
  subst he
  simp [isRuUpper] at h

theorem eq_sp_of_space {c : Char} (hws : isPySpace c = true) (h : (!isPySpace c || c == ' ') = true) :
    c = ' ' := by
  rw [hws] at h
  simpa using h

/-! ### Pair predicates over adjacent characters -/

/-- `noPair bad l` holds when no two adjacent characters of `l` satisfy `bad`. -/
def noPair (bad : Char → Char → Bool) : List Char → Bool
  | a :: b :: t => !bad a b && noPair bad (b :: t)
  | _ => true

/-- Two adjacent plain spaces. -/
def dblSp (a b : Char) : Bool := a == ' ' && b == ' '

/-- A plain space immediately followed by a period. -/
def spDot (a b : Char) : Bool := a == ' ' && b == '.'

/-- A period immediately followed by a plain space. -/
def dotSp (a b : Char) : Bool := a == '.' && b == ' '

/-- Every whitespace character is a plain space. -/
def wsOnlySp (l : List Char) : Bool := l.all (fun c => !isPySpace c || c == ' ')

/-- The last character (if any) is not whitespace. -/
def lastOk : List Char → Bool
  | [] => true
  | [c] => !isPySpace c
  | _ :: c :: t => lastOk (c :: t)

/-- The first character (if any) is not whitespace. -/
def headOk : List Char → Bool
  | [] => true
  | c :: _ => !isPySpace c

theorem noPair_nil {bad : Char → Char → Bool} : noPair bad [] = true := rfl

theorem noPair_one {bad : Char → Char → Bool} {a : Char} : noPair bad [a] = true := rfl

theorem noPair_cons_cons {bad : Char → Char → Bool} {a b : Char} {t : List Char} :
    noPair bad (a :: b :: t) = (!bad a b && noPair bad (b :: t)) := rfl

theorem noPair_tail {bad : Char → Char → Bool} {a : Char} {l : List Char}
    (h : noPair bad (a :: l) = true) : noPair bad l = true := by
  cases l with
  | nil => rfl
  | cons b t =>
    rw [noPair_cons_cons, Bool.and_eq_true] at h
    exact h.2

theorem noPair_head {bad : Char → Char → Bool} {a b : Char} {t : List Char}
    (h : noPair bad (a :: b :: t) = true) : bad a b = false := by
  rw [noPair_cons_cons, Bool.and_eq_true] at h
  simpa using h.1

theorem noPair_cons_of {bad : Char → Char → Bool} {a : Char} {l : List Char}
    (h1 : ∀ b t, l = b :: t → bad a b = false) (h2 : noPair bad l = true) :
    noPair bad (a :: l) = true := by
  cases l with
  | nil => rfl
  | cons b t =>
    rw [noPair_cons_cons, Bool.and_eq_true]
    exact ⟨by simp [h1 b t rfl], h2⟩

theorem noPair_append_right {bad : Char → Char → Bool} :
    ∀ {t l : List Char}, noPair bad (t ++ l) = true → noPair bad l = true := by
  intro t
  induction t with
  | nil => intro l h; exact h
  | cons a t ih =>
    intro l h
    exact ih (noPair_tail h)

theorem noPair_suffix {bad : Char → Char → Bool} {l₁ l₂ : List Char}
    (hs : l₂ <:+ l₁) (h : noPair bad l₁ = true) : noPair bad l₂ = true := by
  obtain ⟨t, rfl⟩ := hs
  exact noPair_append_right h

theorem wsOnlySp_sublist {l₁ l₂ : List Char} (hs : List.Sublist l₂ l₁)
    (h : wsOnlySp l₁ = true) : wsOnlySp l₂ = true := by
  rw [wsOnlySp, List.all_eq_true] at h ⊢
  exact fun c hc => h c (hs.mem hc)

theorem wsOnlySp_tail {a : Char} {l : List Char} (h : wsOnlySp (a :: l) = true) :
    wsOnlySp l = true :=
  wsOnlySp_sublist (List.sublist_cons_self a l) h

theorem wsOnlySp_head {a : Char} {l : List Char} (h : wsOnlySp (a :: l) = true) :
    (!isPySpace a || a == ' ') = true := by
  rw [wsOnlySp, List.all_eq_true] at h
  exact h a (List.mem_cons_self a l)

theorem wsOnlySp_suffix {l₁ l₂ : List Char} (hs : l₂ <:+ l₁)
    (h : wsOnlySp l₁ = true) : wsOnlySp l₂ = true :=
  wsOnlySp_sublist hs.sublist h

theorem lastOk_cons_cons {a b : Char} {t : List Char} :
    lastOk (a :: b :: t) = lastOk (b :: t) := rfl

theorem lastOk_tail {a : Char} {l : List Char} (h : lastOk (a :: l) = true) :
    lastOk l = true := by
  cases l with
  | nil => rfl
  | cons b t => rwa [lastOk_cons_cons] at h

theorem lastOk_cons_of_ne_nil {a : Char} {l : List Char} (hne : l ≠ [])
    (h : lastOk l = true) : lastOk (a :: l) = true := by
  cases l with
  | nil => exact absurd rfl hne
  | cons b t => rwa [lastOk_cons_cons]

/-! ### Case-analysis helpers for `match3` and `match4` -/

theorem isPySpace_dot : isPySpace '.' = false := by decide

theorem match3_nil : match3 [] = none := rfl

theorem match3_cons_ws {c : Char} {cs : List Char} (h : isPySpace c = true) :
    match3 (c :: cs) = match3 cs := by
  unfold match3
  rw [List.dropWhile_cons, if_pos h]

theorem match3_cons_dot {cs : List Char} :
    match3 ('.' :: cs) = some (cs.dropWhile isPySpace) := by
  unfold match3
  rw [List.dropWhile_cons, if_neg (by simp [isPySpace_dot])]
  simp

theorem match3_cons_other {c : Char} {cs : List Char} (h1 : isPySpace c = false)
    (h2 : c ≠ '.') : match3 (c :: cs) = none := by
  unfold match3
  rw [List.dropWhile_cons, if_neg (by simp [h1])]
  simp [h2]

theorem match4_nil : match4 [] = none := rfl

theorem match4_cons_ws {c : Char} {cs : List Char} (h : isPySpace c = true) :
    match4 (c :: cs) = match4 cs := by
  unfold match4
  rw [List.dropWhile_cons, if_pos h]

theorem match4_one {c : Char} (h : isPySpace c = false) : match4 [c] = none := by
  unfold match4
  rw [List.dropWhile_cons, if_neg (by simp [h])]

theorem match4_cons_two {c d : Char} {cs : List Char} (h1 : isPySpace c = false)
    (h2 : (isRuUpper c && (d == '.')) = false) : match4 (c :: d :: cs) = none := by
  unfold match4
  rw [List.dropWhile_cons, if_neg (by simp [h1])]
  simp [h2]

/-- The two-character shape `[А-Я]` `'.'` is absent at the head (after leading
whitespace): exactly the failure condition of the inner half of `match4`. -/
def bpatFail (l : List Char) : Bool :=
  match l.dropWhile isPySpace with
  | b :: d2 :: _ => !(isRuUpper b && (d2 == '.'))
  | _ => true

theorem bpatFail_nil : bpatFail [] = true := rfl

theorem bpatFail_cons_ws {c : Char} {cs : List Char} (h : isPySpace c = true) :
    bpatFail (c :: cs) = bpatFail cs := by
  unfold bpatFail
  rw [List.dropWhile_cons, if_pos h]

theorem bpatFail_one {c : Char} (h : isPySpace c = false) : bpatFail [c] = true := by
  unfold bpatFail
  rw [List.dropWhile_cons, if_neg (by simp [h])]

theorem bpatFail_cons_cons {b d : Char} {t : List Char} (h : isPySpace b = false) :
    bpatFail (b :: d :: t) = !(isRuUpper b && (d == '.')) := by
  unfold bpatFail
  rw [List.dropWhile_cons, if_neg (by simp [h])]

theorem match4_cons_dot_none {c : Char} {cs : List Char} (h1 : isPySpace c = false)
    (hb : bpatFail cs = true) : match4 (c :: '.' :: cs) = none := by
  unfold match4
  rw [List.dropWhile_cons, if_neg (by simp [h1])]
  rcases hd : cs.dropWhile isPySpace with _ | ⟨b, u⟩
  · simp [hd]
  · rcases u with _ | ⟨d2, u2⟩
    · simp [hd]
    · unfold bpatFail at hb
      rw [hd] at hb
      simp only [Bool.not_eq_true'] at hb
      simp [hd, hb]

theorem match4_block {a b : Char} {u : List Char} (ha : isRuUpper a = true)
    (hb : isRuUpper b = true) : match4 (a :: '.' :: b :: '.' :: u) = some (a, b, u) := by
  have ha' : isPySpace a = false := not_space_of_isRuUpper ha
  have hb' : isPySpace b = false := not_space_of_isRuUpper hb
  unfold match4
  rw [List.dropWhile_cons, if_neg (by simp [ha'])]
  have hd2 : List.dropWhile isPySpace (b :: '.' :: u) = b :: '.' :: u := by
    rw [List.dropWhile_cons, if_neg (by simp [hb'])]
  simp [hd2, ha, hb]

theorem match4_some_decomp {l : List Char} {a b : Char} {r : List Char}
    (h : match4 l = some (a, b, r)) :
    isRuUpper a = true ∧ isRuUpper b = true ∧
      ∃ t2, l.dropWhile isPySpace = a :: '.' :: t2 ∧
        t2.dropWhile isPySpace = b :: '.' :: r := by
  unfold match4 at h
  rcases hd : l.dropWhile isPySpace with _ | ⟨c, t⟩ <;> rw [hd] at h
  · exact absurd h (by simp)
  · rcases t with _ | ⟨c2, t2⟩
    · exact absurd h (by simp)
    · by_cases hu : isRuUpper c && (c2 == '.')
      · simp only [hu, if_true] at h
        rcases hd2 : t2.dropWhile isPySpace with _ | ⟨e, u⟩ <;> simp [hd2] at h
        rcases u with _ | ⟨e2, u2⟩
        · simp at h
        · simp at h
          obtain ⟨⟨he, he2⟩, hca, heb, hur⟩ := h
          subst hca
          subst heb
          subst hur
          subst he2
          simp only [Bool.and_eq_true, beq_iff_eq] at hu
          obtain ⟨hu1, hu2⟩ := hu
          subst hu2
          exact ⟨hu1, he, t2, rfl, hd2⟩
      · simp [hu] at h

theorem match4_some_Z {z : List Char} {a b : Char} {r : List Char}
    (hws : wsOnlySp z = true) (hdot : noPair dotSp z = true)
    (h : match4 z = some (a, b, r)) :
    z.dropWhile isPySpace = a :: '.' :: b :: '.' :: r ∧
      isRuUpper a = true ∧ isRuUpper b = true := by
  obtain ⟨ha, hb, t2, hd, hd2⟩ := match4_some_decomp h
  have hsuf : (a :: '.' :: t2) <:+ z := hd ▸ List.dropWhile_suffix _
  have ht2 : t2.dropWhile isPySpace = t2 := by
    cases ht : t2 with
    | nil => rfl
    | cons e t2' =>
      rw [List.dropWhile_cons]
      by_cases hwe : isPySpace e
      · exfalso
        have hnp : noPair dotSp (a :: '.' :: t2) = true := noPair_suffix hsuf hdot
        have hws2 : wsOnlySp (a :: '.' :: t2) = true := wsOnlySp_suffix hsuf hws
        have he' : e = ' ' := by
          have := wsOnlySp_head (wsOnlySp_tail (wsOnlySp_tail (ht ▸ hws2)))
          exact eq_sp_of_space hwe this
        have := noPair_head (ht ▸ noPair_tail hnp)
        rw [he'] at this
        simp [dotSp] at this
      · simp [hwe]
  rw [ht2] at hd2
  subst hd2
  exact ⟨hd, ha, hb⟩

/-! ### Heads and first non-whitespace characters through `sub3`/`sub4` -/

/-- First non-whitespace character of a string. -/
def fnw (l : List Char) : Option Char := (l.dropWhile isPySpace).head?

theorem fnw_nil : fnw [] = none := rfl

theorem fnw_cons_ws {c : Char} {cs : List Char} (h : isPySpace c = true) :
    fnw (c :: cs) = fnw cs := by
  unfold fnw
  rw [List.dropWhile_cons, if_pos h]

theorem fnw_cons_nonws {c : Char} {cs : List Char} (h : isPySpace c = false) :
    fnw (c :: cs) = some c := by
  unfold fnw
  rw [List.dropWhile_cons, if_neg (by simp [h])]
  rfl

theorem dropWhile_cons_nonws {c : Char} {cs : List Char} (h : isPySpace c = false) :
    (c :: cs).dropWhile isPySpace = c :: cs := by
  rw [List.dropWhile_cons, if_neg (by simp [h])]

theorem match3_none_iff_fnw {l : List Char} :
    match3 l = none ↔ fnw l ≠ some '.' := by
  unfold match3 fnw
  rcases hd : l.dropWhile isPySpace with _ | ⟨c, t⟩
  · simp
  · by_cases hc : c == '.'
    · simp [hc]
      exact beq_iff_eq.mp hc
    · simp [hc]
      intro he
      subst he
      simp at hc

theorem match3_some_fnw {l : List Char} {r : List Char} (h : match3 l = some r) :
    fnw l = some '.' := by
  by_contra hne
  have hn : match3 l = none := match3_none_iff_fnw.mpr hne
  rw [h] at hn
  exact absurd hn (by simp)

theorem sub3_ne_nil {c : Char} {cs : List Char} : sub3 (c :: cs) ≠ [] := by
  cases h : match3 (c :: cs) with
  | some r => rw [sub3_match h]; simp
  | none => rw [sub3_copy h]; simp

theorem sub4_ne_nil {c : Char} {cs : List Char} : sub4 (c :: cs) ≠ [] := by
  cases h : match4 (c :: cs) with
  | some x =>
    obtain ⟨a, b, r⟩ := x
    rw [sub4_match h]; simp
  | none => rw [sub4_copy h]; simp

theorem sub3_head_none {l : List Char} (h : match3 l = none) :
    (sub3 l).head? = l.head? := by
  cases l with
  | nil => rfl
  | cons c cs => rw [sub3_copy h]; rfl

theorem sub4_head_none {l : List Char} (h : match4 l = none) :
    (sub4 l).head? = l.head? := by
  cases l with
  | nil => rfl
  | cons c cs => rw [sub4_copy h]; rfl

theorem sub4_head_some {l : List Char} {a b : Char} {r : List Char}
    (h : match4 l = some (a, b, r)) : (sub4 l).head? = some ' ' := by
  cases l with
  | nil => rw [match4_nil] at h; exact absurd h (by simp)
  | cons c cs => rw [sub4_match h]; rfl

theorem sub4_match' {l : List Char} {a b : Char} {r : List Char}
    (h : match4 l = some (a, b, r)) :
    sub4 l = ' ' :: a :: '.' :: b :: '.' :: sub4 r := by
  cases l with
  | nil => rw [match4_nil] at h; exact absurd h (by simp)
  | cons c cs => exact sub4_match h

theorem fnw_sub4 (l : List Char) : fnw (sub4 l) = fnw l := by
  induction l with
  | nil => rfl
  | cons c cs ih =>
    cases h : match4 (c :: cs) with
    | some x =>
      obtain ⟨a, b, r⟩ := x
      obtain ⟨ha, hb, t2, hd, hd2⟩ := match4_some_decomp h
      rw [sub4_match h]
      rw [fnw_cons_ws isPySpace_sp, fnw_cons_nonws (not_space_of_isRuUpper ha)]
      unfold fnw
      rw [hd]
      rfl
    | none =>
      rw [sub4_copy h]
      by_cases hws : isPySpace c
      · rw [fnw_cons_ws hws, fnw_cons_ws hws, ih]
      · rw [fnw_cons_nonws (by simpa using hws), fnw_cons_nonws (by simpa using hws)]

theorem fnw_sub3 (l : List Char) : fnw (sub3 l) = fnw l := by
  induction l with
  | nil => rfl
  | cons c cs ih =>
    cases h : match3 (c :: cs) with
    | some r =>
      rw [sub3_match h]
      rw [fnw_cons_nonws isPySpace_dot]
      exact (match3_some_fnw h).symm
    | none =>
      rw [sub3_copy h]
      by_cases hws : isPySpace c
      · rw [fnw_cons_ws hws, fnw_cons_ws hws, ih]
      · rw [fnw_cons_nonws (by simpa using hws), fnw_cons_nonws (by simpa using hws)]

theorem sub3_block {a b : Char} {w : List Char}
    (ha1 : isPySpace a = false) (ha2 : a ≠ '.')
    (hb1 : isPySpace b = false) (hb2 : b ≠ '.') :
    sub3 (a :: '.' :: b :: '.' :: w) =
      a :: '.' :: b :: '.' :: sub3 (w.dropWhile isPySpace) := by
  rw [sub3_copy (match3_cons_other ha1 ha2)]
  have h1 : match3 ('.' :: b :: '.' :: w) = some (b :: '.' :: w) := by
    rw [match3_cons_dot, dropWhile_cons_nonws hb1]
  rw [sub3_match h1]
  rw [sub3_copy (match3_cons_other hb1 hb2)]
  rw [sub3_match match3_cons_dot]

theorem match4_none_of_bpatFail {l : List Char} (h : bpatFail l = true) :
    match4 l = none := by
  unfold match4
  unfold bpatFail at h
  rcases hd : l.dropWhile isPySpace with _ | ⟨c, t⟩
  · rfl
  · rw [hd] at h
    rcases t with _ | ⟨c2, t2⟩
    · rfl
    · simp at h
      rcases h with h | h
      · simp [h]
      · simp [h]

theorem bpatFail_cons_not_upper {c : Char} {t : List Char} (h : isPySpace c = false)
    (hu : isRuUpper c = false) : bpatFail (c :: t) = true := by
  cases t with
  | nil => exact bpatFail_one h
  | cons d t' =>
    rw [bpatFail_cons_cons h, hu]
    rfl

theorem isRuUpper_dot : isRuUpper '.' = false := by decide

/-- The failure of the `[А-Я]'.'` head shape survives one round of `sub4`
followed by leading-whitespace removal and `sub3`, on strings whose whitespace
is single plain spaces not adjacent to periods. -/
theorem bpatFail_stable : ∀ ds : List Char, wsOnlySp ds = true →
    noPair dblSp ds = true → noPair spDot ds = true → noPair dotSp ds = true →
    bpatFail ds = true →
    bpatFail (sub3 ((sub4 ds).dropWhile isPySpace)) = true := by
  intro ds
  induction ds with
  | nil => intro _ _ _ _ _; rfl
  | cons e ds₂ ih =>
    intro hws hdbl hspd hdsp hbp
    have hm4 : match4 (e :: ds₂) = none := match4_none_of_bpatFail hbp
    rw [sub4_copy hm4]
    by_cases hwe : isPySpace e
    · rw [List.dropWhile_cons, if_pos hwe]
      exact ih (wsOnlySp_tail hws) (noPair_tail hdbl) (noPair_tail hspd)
        (noPair_tail hdsp) (by rwa [bpatFail_cons_ws hwe] at hbp)
    · have hwe' : isPySpace e = false := by simpa using hwe
      rw [dropWhile_cons_nonws hwe']
      by_cases hde : e = '.'
      · subst hde
        rw [sub3_match match3_cons_dot]
        exact bpatFail_cons_not_upper isPySpace_dot isRuUpper_dot
      · rw [sub3_copy (match3_cons_other hwe' hde)]
        by_cases hue : isRuUpper e
        · cases hS : sub3 (sub4 ds₂) with
          | nil => exact bpatFail_one hwe'
          | cons x S₂' =>
            rw [bpatFail_cons_cons hwe', hue]
            have hxne : x ≠ '.' := by
              intro hx
              subst hx
              cases hm3 : match3 (sub4 ds₂) with
              | some r =>
                have hfnw : fnw (sub4 ds₂) = some '.' := match3_some_fnw hm3
                rw [fnw_sub4] at hfnw
                cases ds₂ with
                | nil => simp [fnw_nil] at hfnw
                | cons d₂ ds₃ =>
                  by_cases hwd : isPySpace d₂
                  · rw [fnw_cons_ws hwd] at hfnw
                    cases ds₃ with
                    | nil => simp [fnw_nil] at hfnw
                    | cons g ds₄ =>
                      have hd₂sp : d₂ = ' ' :=
                        eq_sp_of_space hwd (wsOnlySp_head (wsOnlySp_tail hws))
                      have hgnw : isPySpace g = false := by
                        by_contra hg
                        have hg' : isPySpace g = true := by simpa using hg
                        have hgsp : g = ' ' :=
                          eq_sp_of_space hg' (wsOnlySp_head (wsOnlySp_tail
                            (wsOnlySp_tail hws)))
                        have hpair := noPair_head (noPair_tail hdbl)
                        rw [hd₂sp, hgsp] at hpair
                        simp [dblSp] at hpair
                      rw [fnw_cons_nonws hgnw] at hfnw
                      have hgdot : g = '.' := by simpa using hfnw
                      have hpair := noPair_head (noPair_tail hspd)
                      rw [hd₂sp, hgdot] at hpair
                      simp [spDot] at hpair
                  · have hwd' : isPySpace d₂ = false := by simpa using hwd
                    rw [fnw_cons_nonws hwd'] at hfnw
                    have hd₂dot : d₂ = '.' := by simpa using hfnw
                    have hbp2 := hbp
                    rw [bpatFail_cons_cons hwe', hue, hd₂dot] at hbp2
                    simp at hbp2
              | none =>
                have hhead : (sub3 (sub4 ds₂)).head? = (sub4 ds₂).head? :=
                  sub3_head_none hm3
                rw [hS] at hhead
                cases hm4' : match4 ds₂ with
                | some y =>
                  obtain ⟨a, b, r⟩ := y
                  rw [sub4_head_some hm4'] at hhead
                  simp at hhead
                | none =>
                  rw [sub4_head_none hm4'] at hhead
                  cases ds₂ with
                  | nil => simp at hhead
                  | cons d₂ ds₃ =>
                    have hd₂dot : d₂ = '.' := by
                      have : some '.' = some d₂ := hhead
                      exact (Option.some.inj this).symm
                    have hbp2 := hbp
                    rw [bpatFail_cons_cons hwe', hue, hd₂dot] at hbp2
                    simp at hbp2
            simp [hxne]
        · have hue' : isRuUpper e = false := by simpa using hue
          exact bpatFail_cons_not_upper hwe' hue'

theorem match4_dot_head {t : List Char} : match4 ('.' :: t) = none := by
  cases t with
  | nil => exact match4_one isPySpace_dot
  | cons d t' => exact match4_cons_two isPySpace_dot (by simp [isRuUpper_dot])

theorem bpat_of_match4_none {c : Char} {t : List Char} (h1 : isPySpace c = false)
    (h2 : isRuUpper c = true) (h : match4 (c :: '.' :: t) = none) :
    bpatFail t = true := by
  unfold match4 at h
  rw [dropWhile_cons_nonws h1] at h
  unfold bpatFail
  rcases hd : t.dropWhile isPySpace with _ | ⟨b, u⟩
  · rfl
  · rcases u with _ | ⟨d2, u2⟩
    · rfl
    · by_cases hub : isRuUpper b
      · by_cases hd2 : d2 = '.'
        · exfalso
          simp [h2, hd, hub, hd2] at h
        · simp [hub, hd2]
      · simp [hub]

theorem headOk_cons {e : Char} {t : List Char} : headOk (e :: t) = !isPySpace e := rfl

theorem headOk_dropWhile_self {l : List Char} (h : headOk l = true) :
    l.dropWhile isPySpace = l := by
  cases l with
  | nil => rfl
  | cons e t =>
    rw [headOk_cons] at h
    exact dropWhile_cons_nonws (by simpa using h)

theorem headOk_after_dot {r : List Char} (hdsp : noPair dotSp ('.' :: r) = true)
    (hws : wsOnlySp ('.' :: r) = true) : headOk r = true := by
  cases r with
  | nil => rfl
  | cons e t =>
    rw [headOk_cons]
    by_contra hg
    have hg' : isPySpace e = true := by simpa using hg
    have hesp : e = ' ' := eq_sp_of_space hg' (wsOnlySp_head (wsOnlySp_tail hws))
    have hp := noPair_head hdsp
    rw [hesp] at hp
    simp [dotSp] at hp

theorem headOk_after_sp {r : List Char} (hdbl : noPair dblSp (' ' :: r) = true)
    (hws : wsOnlySp (' ' :: r) = true) : headOk r = true := by
  cases r with
  | nil => rfl
  | cons e t =>
    rw [headOk_cons]
    by_contra hg
    have hg' : isPySpace e = true := by simpa using hg
    have hesp : e = ' ' := eq_sp_of_space hg' (wsOnlySp_head (wsOnlySp_tail hws))
    have hp := noPair_head hdbl
    rw [hesp] at hp
    simp [dblSp] at hp

/-- Key idempotence engine: on a string whose whitespace consists of isolated
plain spaces not adjacent to periods (the shape produced by the first three
normalization stages), re-running leading-space removal, `sub3` and `sub4` on
the `sub4` output reproduces the `sub4` output of the lead-stripped string. -/
theorem sub34_key : ∀ (n : Nat) (z : List Char), z.length ≤ n →
    wsOnlySp z = true → noPair dblSp z = true → noPair spDot z = true →
    noPair dotSp z = true →
    sub4 (sub3 ((sub4 z).dropWhile isPySpace)) = sub4 (z.dropWhile isPySpace) := by
  intro n
  induction n with
  | zero =>
    intro z hlen _ _ _ _
    have hz : z = [] := List.length_eq_zero.mp (Nat.le_zero.mp hlen)
    subst hz
    rfl
  | succ n ih =>
    intro z hlen hws hdbl hspd hdsp
    cases z with
    | nil => rfl
    | cons c cs =>
      simp only [List.length_cons] at hlen
      cases hm : match4 (c :: cs) with
      | some x =>
        obtain ⟨a, b, r⟩ := x
        obtain ⟨hd4, ha, hb⟩ := match4_some_Z hws hdsp hm
        have ha' : isPySpace a = false := not_space_of_isRuUpper ha
        have hb' : isPySpace b = false := not_space_of_isRuUpper hb
        have ha2 : a ≠ '.' := ne_dot_of_isRuUpper ha
        have hb2 : b ≠ '.' := ne_dot_of_isRuUpper hb
        have hsufd : (a :: '.' :: b :: '.' :: r) <:+ (c :: cs) :=
          hd4 ▸ List.dropWhile_suffix _
        have hsufr : r <:+ (c :: cs) :=
          List.IsSuffix.trans ⟨[a, '.', b, '.'], rfl⟩ hsufd
        have hlenr : r.length ≤ n := by
          have := match4_some_length hm
          simp only [List.length_cons] at this
          omega
        have hrOk : headOk r = true :=
          headOk_after_dot (noPair_suffix ⟨[a, '.', b], rfl⟩ (noPair_suffix hsufd hdsp))
            (wsOnlySp_suffix ⟨[a, '.', b], rfl⟩ (wsOnlySp_suffix hsufd hws))
        have hrdw : r.dropWhile isPySpace = r := headOk_dropWhile_self hrOk
        rw [sub4_match hm]
        rw [List.dropWhile_cons, if_pos isPySpace_sp, dropWhile_cons_nonws ha']
        rw [sub3_block ha' ha2 hb' hb2]
        rw [sub4_match (match4_block ha hb)]
        rw [hd4]
        rw [sub4_match (match4_block ha hb)]
        have hrec := ih r hlenr (wsOnlySp_suffix hsufr hws) (noPair_suffix hsufr hdbl)
          (noPair_suffix hsufr hspd) (noPair_suffix hsufr hdsp)
        rw [hrdw] at hrec
        rw [hrec]
      | none =>
        rw [sub4_copy hm]
        by_cases hwc : isPySpace c
        · have e1 : (c :: sub4 cs).dropWhile isPySpace = (sub4 cs).dropWhile isPySpace := by
            rw [List.dropWhile_cons, if_pos hwc]
          have e2 : (c :: cs).dropWhile isPySpace = cs.dropWhile isPySpace := by
            rw [List.dropWhile_cons, if_pos hwc]
          rw [e1, e2]
          exact ih cs (by omega) (wsOnlySp_tail hws) (noPair_tail hdbl)
            (noPair_tail hspd) (noPair_tail hdsp)
        · have hwc' : isPySpace c = false := by simpa using hwc
          rw [dropWhile_cons_nonws hwc']
          have e2 : (c :: cs).dropWhile isPySpace = c :: cs := dropWhile_cons_nonws hwc'
          rw [e2, sub4_copy hm]
          by_cases hdc : c = '.'
          · subst hdc
            have hcsdw : cs.dropWhile isPySpace = cs :=
              headOk_dropWhile_self (headOk_after_dot hdsp hws)
            rw [sub3_match match3_cons_dot]
            rw [sub4_copy match4_dot_head]
            have hrec := ih cs (by omega) (wsOnlySp_tail hws) (noPair_tail hdbl)
              (noPair_tail hspd) (noPair_tail hdsp)
            rw [hcsdw] at hrec
            rw [hrec]
          · rw [sub3_copy (match3_cons_other hwc' hdc)]
            cases hm2 : match4 cs with
            | some x2 =>
              obtain ⟨a, b, r⟩ := x2
              have hwsc : wsOnlySp cs = true := wsOnlySp_tail hws
              have hdspc : noPair dotSp cs = true := noPair_tail hdsp
              obtain ⟨hd4, ha, hb⟩ := match4_some_Z hwsc hdspc hm2
              have ha' : isPySpace a = false := not_space_of_isRuUpper ha
              have hb' : isPySpace b = false := not_space_of_isRuUpper hb
              have ha2 : a ≠ '.' := ne_dot_of_isRuUpper ha
              have hb2 : b ≠ '.' := ne_dot_of_isRuUpper hb
              have hsufd : (a :: '.' :: b :: '.' :: r) <:+ cs :=
                hd4 ▸ List.dropWhile_suffix _
              have hsufr : r <:+ cs :=
                List.IsSuffix.trans ⟨[a, '.', b, '.'], rfl⟩ hsufd
              have hlenr : r.length ≤ n := by
                have := match4_some_length hm2
                omega
              have hrOk : headOk r = true :=
                headOk_after_dot
                  (noPair_suffix ⟨[a, '.', b], rfl⟩ (noPair_suffix hsufd hdspc))
                  (wsOnlySp_suffix ⟨[a, '.', b], rfl⟩ (wsOnlySp_suffix hsufd hwsc))
              have hrdw : r.dropWhile isPySpace = r := headOk_dropWhile_self hrOk
              rw [sub4_match' hm2]
              have hm3sp : match3 (' ' :: a :: '.' :: b :: '.' :: sub4 r) = none := by
                rw [match3_cons_ws isPySpace_sp]
                exact match3_cons_other ha' ha2
              rw [sub3_copy hm3sp]
              rw [sub3_block ha' ha2 hb' hb2]
              have hm4c : match4 (c :: ' ' :: a :: '.' :: b :: '.' ::
                  sub3 ((sub4 r).dropWhile isPySpace)) = none :=
                match4_cons_two hwc' (by simp)
              rw [sub4_copy hm4c]
              have hm4sp : match4 (' ' :: a :: '.' :: b :: '.' ::
                  sub3 ((sub4 r).dropWhile isPySpace)) =
                  some (a, b, sub3 ((sub4 r).dropWhile isPySpace)) := by
                rw [match4_cons_ws isPySpace_sp]
                exact match4_block ha hb
              rw [sub4_match hm4sp]
              have hrec := ih r hlenr (wsOnlySp_suffix hsufr hwsc)
                (noPair_suffix hsufr (noPair_tail hdbl))
                (noPair_suffix hsufr (noPair_tail hspd))
                (noPair_suffix hsufr hdspc)
              rw [hrdw] at hrec
              rw [hrec]
            | none =>
              cases cs with
              | nil =>
                rw [sub4_nil, sub3_nil]
                rw [sub4_copy (match4_one hwc'), sub4_nil]
              | cons d ds =>
                rw [sub4_copy hm2]
                by_cases hwd : isPySpace d
                · have hd_sp : d = ' ' :=
                    eq_sp_of_space hwd (wsOnlySp_head (wsOnlySp_tail hws))
                  subst hd_sp
                  cases ds with
                  | nil =>
                    rw [sub4_nil]
                    have hm3one : match3 (' ' :: ([] : List Char)) = none := by
                      rw [match3_cons_ws isPySpace_sp]
                      rfl
                    rw [sub3_copy hm3one, sub3_nil]
                    have hm4one : match4 (' ' :: ([] : List Char)) = none := by
                      rw [match4_cons_ws isPySpace_sp]
                      rfl
                    rw [sub4_copy (match4_cons_two hwc' (by simp))]
                    rw [sub4_copy hm4one, sub4_nil]
                  | cons e ds' =>
                    have heOk : headOk (e :: ds') = true :=
                      headOk_after_sp (noPair_tail hdbl) (wsOnlySp_tail hws)
                    have he' : isPySpace e = false := by
                      rw [headOk_cons] at heOk
                      simpa using heOk
                    have he2 : e ≠ '.' := by
                      have hp := noPair_head (noPair_tail hspd)
                      intro hx
                      subst hx
                      simp [spDot] at hp
                    have hm2ds : match4 (e :: ds') = none := by
                      rwa [match4_cons_ws isPySpace_sp] at hm2
                    rw [sub4_copy hm2ds]
                    have hm3e : match3 (' ' :: e :: sub4 ds') = none := by
                      rw [match3_cons_ws isPySpace_sp]
                      exact match3_cons_other he' he2
                    rw [sub3_copy hm3e]
                    have h0 := ih (' ' :: e :: ds') (by omega) (wsOnlySp_tail hws)
                      (noPair_tail hdbl) (noPair_tail hspd) (noPair_tail hdsp)
                    rw [sub4_copy hm2] at h0
                    rw [sub4_copy hm2ds] at h0
                    have f1 : (' ' :: e :: sub4 ds').dropWhile isPySpace =
                        e :: sub4 ds' := by
                      rw [List.dropWhile_cons, if_pos isPySpace_sp,
                        dropWhile_cons_nonws he']
                    have f2 : (' ' :: e :: ds').dropWhile isPySpace = e :: ds' := by
                      rw [List.dropWhile_cons, if_pos isPySpace_sp,
                        dropWhile_cons_nonws he']
                    rw [f1, f2] at h0
                    rw [sub4_copy hm2ds] at h0
                    have hm4Y : match4 (sub3 (e :: sub4 ds')) = none := by
                      cases hmy : match4 (sub3 (e :: sub4 ds')) with
                      | none => rfl
                      | some y =>
                        obtain ⟨a₃, b₃, r₃⟩ := y
                        have hh := sub4_head_some hmy
                        rw [h0] at hh
                        simp only [List.head?_cons, Option.some.injEq] at hh
                        rw [hh] at he'
                        rw [isPySpace_sp] at he'
                        exact absurd he' (by decide)
                    have hm4spY : match4 (' ' :: sub3 (e :: sub4 ds')) = none := by
                      rw [match4_cons_ws isPySpace_sp]
                      exact hm4Y
                    have hm4cY : match4 (c :: ' ' :: sub3 (e :: sub4 ds')) = none :=
                      match4_cons_two hwc' (by simp)
                    rw [sub4_copy hm4cY, sub4_copy hm4spY, h0]
                · have hwd' : isPySpace d = false := by simpa using hwd
                  by_cases hdd : d = '.'
                  · subst hdd
                    rw [sub3_match match3_cons_dot]
                    have hdsdw : ds.dropWhile isPySpace = ds :=
                      headOk_dropWhile_self
                        (headOk_after_dot (noPair_tail hdsp) (wsOnlySp_tail hws))
                    have hrec := ih ds
                      (by simp only [List.length_cons] at hlen; omega)
                      (wsOnlySp_tail (wsOnlySp_tail hws))
                      (noPair_tail (noPair_tail hdbl)) (noPair_tail (noPair_tail hspd))
                      (noPair_tail (noPair_tail hdsp))
                    rw [hdsdw] at hrec
                    have hm4top : match4 (c :: '.' ::
                        sub3 ((sub4 ds).dropWhile isPySpace)) = none := by
                      by_cases huc : isRuUpper c
                      · have hbp : bpatFail ds = true := bpat_of_match4_none hwc' huc hm
                        have hbp2 : bpatFail (sub3 ((sub4 ds).dropWhile isPySpace)) =
                            true :=
                          bpatFail_stable ds (wsOnlySp_tail (wsOnlySp_tail hws))
                            (noPair_tail (noPair_tail hdbl))
                            (noPair_tail (noPair_tail hspd))
                            (noPair_tail (noPair_tail hdsp)) hbp
                        exact match4_cons_dot_none hwc' hbp2
                      · have huc' : isRuUpper c = false := by simpa using huc
                        exact match4_cons_two hwc' (by simp [huc'])
                    rw [sub4_copy hm4top]
                    rw [sub4_copy match4_dot_head]
                    rw [hrec]
                  · rw [sub3_copy (match3_cons_other hwd' hdd)]
                    have hm4top : match4 (c :: d :: sub3 (sub4 ds)) = none :=
                      match4_cons_two hwc' (by simp [hdd])
                    rw [sub4_copy hm4top]
                    have h0 := ih (d :: ds) (by omega) (wsOnlySp_tail hws)
                      (noPair_tail hdbl) (noPair_tail hspd) (noPair_tail hdsp)
                    rw [sub4_copy hm2] at h0
                    rw [dropWhile_cons_nonws hwd'] at h0
                    rw [dropWhile_cons_nonws hwd'] at h0
                    rw [sub4_copy hm2] at h0
                    rw [sub3_copy (match3_cons_other hwd' hdd)] at h0
                    rw [h0]

/-! ### Invariants of the first two normalization stages -/

/-- Neither yo letter occurs. -/
def noYo (l : List Char) : Bool := l.all (fun c => !(c == 'Ё') && !(c == 'ё'))

theorem wsOnlySp_cons {x : Char} {l : List Char} :
    wsOnlySp (x :: l) = ((!isPySpace x || x == ' ') && wsOnlySp l) := rfl

theorem beq_sp_false {c : Char} (h : isPySpace c = false) : (c == ' ') = false := by
  cases hcc : (c == ' ') with
  | false => rfl
  | true =>
    have hc : c = ' ' := by simpa using hcc
    rw [hc, isPySpace_sp] at h
    exact absurd h (by decide)

theorem headOk_collapseGo_true : ∀ l : List Char, headOk (collapseGo true l) = true := by
  intro l
  induction l with
  | nil => rfl
  | cons c cs ih =>
    by_cases hc : isPySpace c
    · simp only [collapseGo, hc, if_true]
      exact ih
    · have hc' : isPySpace c = false := by simpa using hc
      simp only [collapseGo, hc', Bool.false_eq_true, if_false, headOk_cons]
      simp [hc']

theorem wsOnlySp_collapseGo : ∀ (b : Bool) (l : List Char),
    wsOnlySp (collapseGo b l) = true := by
  intro b l
  induction l generalizing b with
  | nil => rfl
  | cons c cs ih =>
    by_cases hc : isPySpace c
    · simp only [collapseGo, hc, if_true]
      cases b with
      | true => exact ih true
      | false =>
        rw [if_neg (by simp)]
        rw [wsOnlySp_cons]
        simp [ih true]
    · have hc' : isPySpace c = false := by simpa using hc
      simp only [collapseGo, hc', Bool.false_eq_true, if_false]
      rw [wsOnlySp_cons]
      simp [hc', ih false]

theorem noDbl_collapseGo : ∀ (b : Bool) (l : List Char),
    noPair dblSp (collapseGo b l) = true := by
  intro b l
  induction l generalizing b with
  | nil => rfl
  | cons c cs ih =>
    by_cases hc : isPySpace c
    · simp only [collapseGo, hc, if_true]
      cases b with
      | true => exact ih true
      | false =>
        rw [if_neg (by simp)]
        refine noPair_cons_of ?_ (ih true)
        intro x t hxt
        have hh := headOk_collapseGo_true cs
        rw [hxt, headOk_cons] at hh
        have hx : isPySpace x = false := by simpa using hh
        simp [dblSp, beq_sp_false hx]
    · have hc' : isPySpace c = false := by simpa using hc
      simp only [collapseGo, hc', Bool.false_eq_true, if_false]
      refine noPair_cons_of ?_ (ih false)
      intro x t hxt
      simp [dblSp, beq_sp_false hc']

theorem dropTrail_cons {c : Char} {cs : List Char} :
    dropTrail (c :: cs) = match dropTrail cs with
      | [] => if isPySpace c then [] else [c]
      | r => c :: r := rfl

theorem dropTrail_pre : ∀ l : List Char, dropTrail l <+: l := by
  intro l
  induction l with
  | nil => exact List.nil_prefix
  | cons c cs ih =>
    rw [dropTrail_cons]
    cases h : dropTrail cs with
    | nil =>
      by_cases hc : isPySpace c
      · simp only [hc, if_true]
        exact List.nil_prefix
      · simp only [hc, if_false]
        exact ⟨cs, rfl⟩
    | cons x t =>
      rw [h] at ih
      obtain ⟨u, hu⟩ := ih
      refine ⟨u, ?_⟩
      show (c :: x :: t) ++ u = c :: cs
      simp [← hu]

theorem lastOk_dropTrail : ∀ l : List Char, lastOk (dropTrail l) = true := by
  intro l
  induction l with
  | nil => rfl
  | cons c cs ih =>
    rw [dropTrail_cons]
    cases h : dropTrail cs with
    | nil =>
      by_cases hc : isPySpace c
      · simp only [hc, if_true]
        rfl
      · have hc' : isPySpace c = false := by simpa using hc
        simp only [hc, if_false]
        show (!isPySpace c) = true
        simp [hc']
    | cons x t =>
      rw [h] at ih
      exact lastOk_cons_of_ne_nil (by simp) ih

theorem headOk_dropTrail {l : List Char} (h : headOk l = true) :
    headOk (dropTrail l) = true := by
  cases l with
  | nil => rfl
  | cons c cs =>
    rw [dropTrail_cons]
    cases hd : dropTrail cs with
    | nil =>
      by_cases hc : isPySpace c
      · simp only [hc, if_true]
        rfl
      · simp only [hc, if_false]
        exact h
    | cons x t => exact h

theorem headOk_dropWhile : ∀ l : List Char, headOk (l.dropWhile isPySpace) = true := by
  intro l
  induction l with
  | nil => rfl
  | cons c cs ih =>
    by_cases hc : isPySpace c
    · rw [List.dropWhile_cons, if_pos hc]
      exact ih
    · have hc' : isPySpace c = false := by simpa using hc
      rw [dropWhile_cons_nonws hc', headOk_cons]
      simp [hc']

theorem lastOk_suffix {l₁ l₂ : List Char} (hs : l₂ <:+ l₁) (h : lastOk l₁ = true) :
    lastOk l₂ = true := by
  obtain ⟨t, rfl⟩ := hs
  induction t with
  | nil => exact h
  | cons a t ih => exact ih (lastOk_tail h)

theorem noPair_append_left {bad : Char → Char → Bool} :
    ∀ {l t : List Char}, noPair bad (l ++ t) = true → noPair bad l = true := by
  intro l
  induction l with
  | nil => intro t _; rfl
  | cons a l ih =>
    intro t h
    cases l with
    | nil => rfl
    | cons b l' =>
      rw [noPair_cons_cons]
      have h1 : bad a b = false := noPair_head h
      have h2 : noPair bad (b :: l') = true := ih (noPair_tail h)
      simp [h1, h2]

theorem noPair_prefix {bad : Char → Char → Bool} {l₁ l₂ : List Char}
    (hs : l₁ <+: l₂) (h : noPair bad l₂ = true) : noPair bad l₁ = true := by
  obtain ⟨t, rfl⟩ := hs
  exact noPair_append_left h

theorem wsOnlySp_pyStrip {l : List Char} (h : wsOnlySp l = true) :
    wsOnlySp (pyStrip l) = true :=
  wsOnlySp_sublist (dropTrail_pre _).sublist
    (wsOnlySp_suffix (List.dropWhile_suffix _) h)

theorem noDbl_pyStrip {l : List Char} (h : noPair dblSp l = true) :
    noPair dblSp (pyStrip l) = true :=
  noPair_prefix (dropTrail_pre _)
    (noPair_suffix (List.dropWhile_suffix _) h)

theorem headOk_pyStrip (l : List Char) : headOk (pyStrip l) = true :=
  headOk_dropTrail (headOk_dropWhile l)

theorem lastOk_pyStrip (l : List Char) : lastOk (pyStrip l) = true :=
  lastOk_dropTrail _

/-! ### The yo-to-ye stage -/

theorem isPySpace_yoYe (c : Char) : isPySpace (yoYe c) = isPySpace c := by
  unfold yoYe
  by_cases h1 : c = 'Ё'
  · rw [if_pos h1, h1]
    decide
  · rw [if_neg h1]
    by_cases h2 : c = 'ё'
    · rw [if_pos h2, h2]
      decide
    · rw [if_neg h2]

theorem yoYe_beq_sp (c : Char) : (yoYe c == ' ') = (c == ' ') := by
  unfold yoYe
  by_cases h1 : c = 'Ё'
  · rw [if_pos h1, h1]
    decide
  · rw [if_neg h1]
    by_cases h2 : c = 'ё'
    · rw [if_pos h2, h2]
      decide
    · rw [if_neg h2]

theorem yoYe_beq_dot (c : Char) : (yoYe c == '.') = (c == '.') := by
  unfold yoYe
  by_cases h1 : c = 'Ё'
  · rw [if_pos h1, h1]
    decide
  · rw [if_neg h1]
    by_cases h2 : c = 'ё'
    · rw [if_pos h2, h2]
      decide
    · rw [if_neg h2]

theorem noPair_map_yoYe {bad : Char → Char → Bool}
    (hbad : ∀ a b, bad (yoYe a) (yoYe b) = bad a b) :
    ∀ {l : List Char}, noPair bad l = true → noPair bad (l.map yoYe) = true := by
  intro l
  induction l with
  | nil => intro _; rfl
  | cons a l ih =>
    intro h
    cases l with
    | nil => rfl
    | cons b l' =>
      rw [List.map_cons, List.map_cons, noPair_cons_cons, hbad]
      have h2 := ih (noPair_tail h)
      rw [List.map_cons] at h2
      simp [noPair_head h, h2]

theorem wsOnlySp_map_yoYe {l : List Char} (h : wsOnlySp l = true) :
    wsOnlySp (l.map yoYe) = true := by
  induction l with
  | nil => rfl
  | cons c cs ih =>
    rw [List.map_cons, wsOnlySp_cons, isPySpace_yoYe, yoYe_beq_sp]
    rw [wsOnlySp_cons] at h
    simp only [Bool.and_eq_true] at h
    simp [h.1, ih h.2]

theorem headOk_map_yoYe {l : List Char} (h : headOk l = true) :
    headOk (l.map yoYe) = true := by
  cases l with
  | nil => rfl
  | cons c cs =>
    rw [List.map_cons, headOk_cons, isPySpace_yoYe]
    exact h

theorem lastOk_map_yoYe : ∀ {l : List Char}, lastOk l = true →
    lastOk (l.map yoYe) = true := by
  intro l
  induction l with
  | nil => intro _; rfl
  | cons c cs ih =>
    intro h
    cases cs with
    | nil =>
      show (!isPySpace (yoYe c)) = true
      rw [isPySpace_yoYe]
      exact h
    | cons d ds =>
      rw [List.map_cons, List.map_cons, lastOk_cons_cons]
      have h2 := ih (lastOk_tail h)
      rwa [List.map_cons] at h2

theorem noYo_map_yoYe : ∀ l : List Char, noYo (l.map yoYe) = true := by
  intro l
  induction l with
  | nil => rfl
  | cons c cs ih =>
    rw [List.map_cons]
    show ((!(yoYe c == 'Ё') && !(yoYe c == 'ё')) && noYo (cs.map yoYe)) = true
    rw [ih]
    unfold yoYe
    by_cases h1 : c = 'Ё'
    · rw [if_pos h1]
      decide
    · rw [if_neg h1]
      by_cases h2 : c = 'ё'
      · rw [if_pos h2]
        decide
      · rw [if_neg h2]
        simp only [Bool.and_true]
        have hy1 : (c == 'Ё') = false := by simpa using h1
        have hy2 : (c == 'ё') = false := by simpa using h2
        simp [hy1, hy2]

/-! ### Invariants through `sub3` and `sub4` -/

theorem match3_some_spec {l r : List Char} (h : match3 l = some r) :
    ∃ t, l.dropWhile isPySpace = '.' :: t ∧ r = t.dropWhile isPySpace := by
  unfold match3 at h
  rcases hd : l.dropWhile isPySpace with _ | ⟨c, t⟩ <;> rw [hd] at h
  · exact absurd h (by simp)
  · by_cases hc : c == '.'
    · simp only [hc, if_true, Option.some.injEq] at h
      have hc' : c = '.' := by simpa using hc
      subst hc'
      exact ⟨t, rfl, h.symm⟩
    · simp [hc] at h

theorem match3_some_suffix {l r : List Char} (h : match3 l = some r) : r <:+ l := by
  obtain ⟨t, hd, hr⟩ := match3_some_spec h
  subst hr
  exact ((List.dropWhile_suffix _).trans
    (⟨['.'], rfl⟩ : t <:+ '.' :: t)).trans (hd ▸ List.dropWhile_suffix _)

theorem match3_some_headOk {l r : List Char} (h : match3 l = some r) :
    headOk r = true := by
  obtain ⟨t, hd, hr⟩ := match3_some_spec h
  subst hr
  exact headOk_dropWhile t

theorem match4_some_suffix {l : List Char} {a b : Char} {r : List Char}
    (h : match4 l = some (a, b, r)) : r <:+ l := by
  obtain ⟨ha, hb, t2, hd, hd2⟩ := match4_some_decomp h
  have h0 : r <:+ t2.dropWhile isPySpace := by
    rw [hd2]
    exact ⟨[b, '.'], rfl⟩
  have h1 : r <:+ t2 := h0.trans (List.dropWhile_suffix _)
  have h2 : t2 <:+ (a :: '.' :: t2) := ⟨[a, '.'], rfl⟩
  have h3 : (a :: '.' :: t2) <:+ l := by
    rw [← hd]
    exact List.dropWhile_suffix _
  exact (h1.trans h2).trans h3

theorem sub3_headOk {l : List Char} (h : headOk l = true) :
    headOk (sub3 l) = true := by
  cases l with
  | nil => rfl
  | cons c cs =>
    cases hm : match3 (c :: cs) with
    | some r =>
      rw [sub3_match hm, headOk_cons]
      simp [isPySpace_dot]
    | none =>
      rw [sub3_copy hm, headOk_cons]
      exact h

theorem sub3_mem : ∀ (n : Nat) (l : List Char), l.length ≤ n →
    ∀ x ∈ sub3 l, x ∈ l ∨ x = '.' := by
  intro n
  induction n with
  | zero =>
    intro l hlen x hx
    have hl : l = [] := List.length_eq_zero.mp (Nat.le_zero.mp hlen)
    subst hl
    simp [sub3_nil] at hx
  | succ n ih =>
    intro l hlen x hx
    cases l with
    | nil => simp [sub3_nil] at hx
    | cons c cs =>
      simp only [List.length_cons] at hlen
      cases hm : match3 (c :: cs) with
      | some r =>
        rw [sub3_match hm] at hx
        rcases List.mem_cons.mp hx with hdot | hx2
        · exact Or.inr hdot
        · have hlenr : r.length ≤ n := by
            have := match3_some_length hm
            simp only [List.length_cons] at this
            omega
          rcases ih r hlenr x hx2 with hmem | hdot
          · exact Or.inl ((match3_some_suffix hm).subset hmem)
          · exact Or.inr hdot
      | none =>
        rw [sub3_copy hm] at hx
        rcases List.mem_cons.mp hx with hcx | hx2
        · exact Or.inl (hcx ▸ List.mem_cons_self c cs)
        · rcases ih cs (by omega) x hx2 with hmem | hdot
          · exact Or.inl (List.mem_cons_of_mem c hmem)
          · exact Or.inr hdot

theorem sub4_mem : ∀ (n : Nat) (l : List Char), l.length ≤ n →
    ∀ x ∈ sub4 l, x ∈ l ∨ x = ' ' ∨ x = '.' := by
  intro n
  induction n with
  | zero =>
    intro l hlen x hx
    have hl : l = [] := List.length_eq_zero.mp (Nat.le_zero.mp hlen)
    subst hl
    simp [sub4_nil] at hx
  | succ n ih =>
    intro l hlen x hx
    cases l with
    | nil => simp [sub4_nil] at hx
    | cons c cs =>
      simp only [List.length_cons] at hlen
      cases hm : match4 (c :: cs) with
      | some y =>
        obtain ⟨a, b, r⟩ := y
        obtain ⟨hd4, ha, hb, t2, hd, hd2⟩ :=
          And.intro (match4_some_suffix hm) (match4_some_decomp hm)
        rw [sub4_match hm] at hx
        have hamem : a ∈ (c :: cs) :=
          (hd ▸ List.dropWhile_suffix _ : (a :: '.' :: t2) <:+ (c :: cs)).subset
            (List.mem_cons_self a _)
        have hbmem : b ∈ (c :: cs) := by
          have h1 : b ∈ t2.dropWhile isPySpace := by
            rw [hd2]
            exact List.mem_cons_self b _
          have h2 : b ∈ t2 := (List.dropWhile_suffix _).subset h1
          have h3 : (a :: '.' :: t2) <:+ (c :: cs) := hd ▸ List.dropWhile_suffix _
          exact h3.subset (by simp [h2])
        have hlenr : r.length ≤ n := by
          have := match4_some_length hm
          simp only [List.length_cons] at this
          omega
        rcases List.mem_cons.mp hx with hsp | hx2
        · exact Or.inr (Or.inl hsp)
        rcases List.mem_cons.mp hx2 with hax | hx3
        · exact Or.inl (hax ▸ hamem)
        rcases List.mem_cons.mp hx3 with hdx | hx4
        · exact Or.inr (Or.inr hdx)
        rcases List.mem_cons.mp hx4 with hbx | hx5
        · exact Or.inl (hbx ▸ hbmem)
        rcases List.mem_cons.mp hx5 with hdx | hx6
        · exact Or.inr (Or.inr hdx)
        rcases ih r hlenr x hx6 with hmem | hrest
        · exact Or.inl ((match4_some_suffix hm).subset hmem)
        · exact Or.inr hrest
      | none =>
        rw [sub4_copy hm] at hx
        rcases List.mem_cons.mp hx with hcx | hx2
        · exact Or.inl (hcx ▸ List.mem_cons_self c cs)
        · rcases ih cs (by omega) x hx2 with hmem | hrest
          · exact Or.inl (List.mem_cons_of_mem c hmem)
          · exact Or.inr hrest

theorem wsOnlySp_mem {l : List Char} (h : wsOnlySp l = true) {x : Char}
    (hx : x ∈ l) : (!isPySpace x || x == ' ') = true := by
  rw [wsOnlySp, List.all_eq_true] at h
  exact h x hx

theorem wsOnlySp_sub3 {l : List Char} (h : wsOnlySp l = true) :
    wsOnlySp (sub3 l) = true := by
  rw [wsOnlySp, List.all_eq_true]
  intro x hx
  rcases sub3_mem l.length l (le_refl _) x hx with hmem | hdot
  · exact wsOnlySp_mem h hmem
  · subst hdot
    simp [isPySpace_dot]

theorem wsOnlySp_sub4 {l : List Char} (h : wsOnlySp l = true) :
    wsOnlySp (sub4 l) = true := by
  rw [wsOnlySp, List.all_eq_true]
  intro x hx
  rcases sub4_mem l.length l (le_refl _) x hx with hmem | hsp | hdot
  · exact wsOnlySp_mem h hmem
  · subst hsp
    simp
  · subst hdot
    simp [isPySpace_dot]

theorem noYo_mem {l : List Char} (h : noYo l = true) {x : Char} (hx : x ∈ l) :
    (!(x == 'Ё') && !(x == 'ё')) = true := by
  rw [noYo, List.all_eq_true] at h
  exact h x hx

theorem noYo_sub3 {l : List Char} (h : noYo l = true) : noYo (sub3 l) = true := by
  rw [noYo, List.all_eq_true]
  intro x hx
  rcases sub3_mem l.length l (le_refl _) x hx with hmem | hdot
  · exact noYo_mem h hmem
  · subst hdot
    decide

theorem noYo_sub4 {l : List Char} (h : noYo l = true) : noYo (sub4 l) = true := by
  rw [noYo, List.all_eq_true]
  intro x hx
  rcases sub4_mem l.length l (le_refl _) x hx with hmem | hsp | hdot
  · exact noYo_mem h hmem
  · subst hsp
    decide
  · subst hdot
    decide

theorem noYo_sublist {l₁ l₂ : List Char} (hs : List.Sublist l₂ l₁)
    (h : noYo l₁ = true) : noYo l₂ = true := by
  rw [noYo, List.all_eq_true] at h ⊢
  exact fun c hc => h c (hs.mem hc)

theorem dblSp_first_false {a b : Char} (h : (a == ' ') = false) :
    dblSp a b = false := by simp [dblSp, h]

theorem dblSp_second_false {a b : Char} (h : (b == ' ') = false) :
    dblSp a b = false := by simp [dblSp, h]

theorem sub3_pairs : ∀ (n : Nat) (l : List Char), l.length ≤ n →
    wsOnlySp l = true → noPair dblSp l = true →
    noPair dblSp (sub3 l) = true ∧ noPair spDot (sub3 l) = true ∧
      noPair dotSp (sub3 l) = true := by
  intro n
  induction n with
  | zero =>
    intro l hlen _ _
    have hl : l = [] := List.length_eq_zero.mp (Nat.le_zero.mp hlen)
    subst hl
    exact ⟨rfl, rfl, rfl⟩
  | succ n ih =>
    intro l hlen hws hdbl
    cases l with
    | nil => exact ⟨rfl, rfl, rfl⟩
    | cons c cs =>
      simp only [List.length_cons] at hlen
      cases hm : match3 (c :: cs) with
      | some r =>
        rw [sub3_match hm]
        have hsuf : r <:+ (c :: cs) := match3_some_suffix hm
        have hlenr : r.length ≤ n := by
          have := match3_some_length hm
          simp only [List.length_cons] at this
          omega
        obtain ⟨i1, i2, i3⟩ := ih r hlenr (wsOnlySp_suffix hsuf hws)
          (noPair_suffix hsuf hdbl)
        have hhead : headOk (sub3 r) = true := sub3_headOk (match3_some_headOk hm)
        refine ⟨noPair_cons_of ?_ i1, noPair_cons_of ?_ i2, noPair_cons_of ?_ i3⟩
        · intro x t hxt
          exact dblSp_first_false (by decide)
        · intro x t hxt
          simp [spDot]
        · intro x t hxt
          rw [hxt, headOk_cons] at hhead
          have hx : isPySpace x = false := by simpa using hhead
          simp [dotSp, beq_sp_false hx]
      | none =>
        rw [sub3_copy hm]
        obtain ⟨i1, i2, i3⟩ := ih cs (by omega) (wsOnlySp_tail hws) (noPair_tail hdbl)
        refine ⟨noPair_cons_of ?_ i1, noPair_cons_of ?_ i2, noPair_cons_of ?_ i3⟩
        · by_cases hcsp : (c == ' ')
          · have hcsp' : c = ' ' := by simpa using hcsp
            subst hcsp'
            rw [match3_cons_ws isPySpace_sp] at hm
            cases cs with
            | nil =>
              intro x t hxt
              rw [sub3_nil] at hxt
              exact absurd hxt (by simp)
            | cons d ds =>
              intro x t hxt
              rw [sub3_copy hm] at hxt
              have hxd : d = x := by
                have := congrArg List.head? hxt
                simpa using this
              rw [← hxd]
              exact noPair_head hdbl
          · intro x t hxt
            exact dblSp_first_false (by simpa using hcsp)
        · by_cases hcsp : (c == ' ')
          · have hcsp' : c = ' ' := by simpa using hcsp
            subst hcsp'
            rw [match3_cons_ws isPySpace_sp] at hm
            cases cs with
            | nil =>
              intro x t hxt
              rw [sub3_nil] at hxt
              exact absurd hxt (by simp)
            | cons d ds =>
              intro x t hxt
              have hd_ne : d ≠ '.' := by
                intro hdd
                subst hdd
                rw [match3_cons_dot] at hm
                exact absurd hm (by simp)
              rw [sub3_copy hm] at hxt
              have hxd : d = x := by
                have := congrArg List.head? hxt
                simpa using this
              rw [← hxd]
              have hbe : (d == '.') = false := by simpa using hd_ne
              simp [spDot, hbe]
          · intro x t hxt
            have hce : (c == ' ') = false := by simpa using hcsp
            simp [spDot, hce]
        · intro x t hxt
          by_cases hcdot : (c == '.')
          · have hcdot' : c = '.' := by simpa using hcdot
            subst hcdot'
            rw [match3_cons_dot] at hm
            exact absurd hm (by simp)
          · have hce : (c == '.') = false := by simpa using hcdot
            simp [dotSp, hce]

theorem sub3_lastOk : ∀ (n : Nat) (l : List Char), l.length ≤ n →
    lastOk l = true → lastOk (sub3 l) = true := by
  intro n
  induction n with
  | zero =>
    intro l hlen _
    have hl : l = [] := List.length_eq_zero.mp (Nat.le_zero.mp hlen)
    subst hl
    rfl
  | succ n ih =>
    intro l hlen hlast
    cases l with
    | nil => rfl
    | cons c cs =>
      simp only [List.length_cons] at hlen
      cases hm : match3 (c :: cs) with
      | some r =>
        rw [sub3_match hm]
        have hlenr : r.length ≤ n := by
          have := match3_some_length hm
          simp only [List.length_cons] at this
          omega
        have hlr : lastOk r = true := lastOk_suffix (match3_some_suffix hm) hlast
        cases hsr : sub3 r with
        | nil =>
          show (!isPySpace '.') = true
          simp [isPySpace_dot]
        | cons x t =>
          rw [← hsr]
          exact lastOk_cons_of_ne_nil (by simp [hsr]) (ih r hlenr hlr)
      | none =>
        rw [sub3_copy hm]
        cases cs with
        | nil =>
          rw [sub3_nil]
          exact hlast
        | cons d ds =>
          exact lastOk_cons_of_ne_nil sub3_ne_nil
            (ih (d :: ds) (by omega) (lastOk_tail hlast))

theorem sub4_noDbl : ∀ (n : Nat) (l : List Char), l.length ≤ n →
    wsOnlySp l = true → noPair dblSp l = true →
    noPair dblSp (sub4 l) = true := by
  intro n
  induction n with
  | zero =>
    intro l hlen _ _
    have hl : l = [] := List.length_eq_zero.mp (Nat.le_zero.mp hlen)
    subst hl
    rfl
  | succ n ih =>
    intro l hlen hws hdbl
    cases l with
    | nil => rfl
    | cons c cs =>
      simp only [List.length_cons] at hlen
      cases hm : match4 (c :: cs) with
      | some y =>
        obtain ⟨a, b, r⟩ := y
        obtain ⟨ha, hb, t2, hd, hd2⟩ := match4_some_decomp hm
        have ha' : isPySpace a = false := not_space_of_isRuUpper ha
        have hb' : isPySpace b = false := not_space_of_isRuUpper hb
        rw [sub4_match hm]
        have hsuf : r <:+ (c :: cs) := match4_some_suffix hm
        have hlenr : r.length ≤ n := by
          have := match4_some_length hm
          simp only [List.length_cons] at this
          omega
        have i1 : noPair dblSp (sub4 r) = true :=
          ih r hlenr (wsOnlySp_suffix hsuf hws) (noPair_suffix hsuf hdbl)
        refine noPair_cons_of ?_ (noPair_cons_of ?_ (noPair_cons_of ?_
          (noPair_cons_of ?_ (noPair_cons_of ?_ i1))))
        · intro x t hxt
          have hax : a = x := by
            have := congrArg List.head? hxt
            simpa using this
          rw [← hax]
          exact dblSp_second_false (beq_sp_false ha')
        · intro x t hxt
          exact dblSp_first_false (beq_sp_false ha')
        · intro x t hxt
          exact dblSp_first_false (by decide)
        · intro x t hxt
          exact dblSp_first_false (beq_sp_false hb')
        · intro x t hxt
          exact dblSp_first_false (by decide)
      | none =>
        rw [sub4_copy hm]
        have i1 : noPair dblSp (sub4 cs) = true :=
          ih cs (by omega) (wsOnlySp_tail hws) (noPair_tail hdbl)
        refine noPair_cons_of ?_ i1
        intro x t hxt
        by_cases hcsp : (c == ' ')
        · have hcsp' : c = ' ' := by simpa using hcsp
          cases hm2 : match4 cs with
          | some y2 =>
            subst hcsp'
            rw [match4_cons_ws isPySpace_sp, hm2] at hm
            exact absurd hm (by simp)
          | none =>
            have hh := sub4_head_none hm2
            rw [hxt] at hh
            cases cs with
            | nil => exact absurd hh.symm (by simp)
            | cons d ds =>
              have hxd : x = d := by simpa using hh
              subst hxd
              exact noPair_head hdbl
        · exact dblSp_first_false (by simpa using hcsp)

theorem sub4_lastOk : ∀ (n : Nat) (l : List Char), l.length ≤ n →
    lastOk l = true → lastOk (sub4 l) = true := by
  intro n
  induction n with
  | zero =>
    intro l hlen _
    have hl : l = [] := List.length_eq_zero.mp (Nat.le_zero.mp hlen)
    subst hl
    rfl
  | succ n ih =>
    intro l hlen hlast
    cases l with
    | nil => rfl
    | cons c cs =>
      simp only [List.length_cons] at hlen
      cases hm : match4 (c :: cs) with
      | some y =>
        obtain ⟨a, b, r⟩ := y
        rw [sub4_match hm]
        have hlenr : r.length ≤ n := by
          have := match4_some_length hm
          simp only [List.length_cons] at this
          omega
        have hlr : lastOk r = true := lastOk_suffix (match4_some_suffix hm) hlast
        rw [lastOk_cons_cons, lastOk_cons_cons, lastOk_cons_cons, lastOk_cons_cons]
        cases hsr : sub4 r with
        | nil =>
          show (!isPySpace '.') = true
          simp [isPySpace_dot]
        | cons x t =>
          rw [← hsr]
          exact lastOk_cons_of_ne_nil (by simp [hsr]) (ih r hlenr hlr)
      | none =>
        rw [sub4_copy hm]
        cases cs with
        | nil => exact hlast
        | cons d ds =>
          exact lastOk_cons_of_ne_nil sub4_ne_nil
            (ih (d :: ds) (by omega) (lastOk_tail hlast))

/-! ### The normalization stages fix their own output -/

theorem collapseGo_cons_ws_false {c : Char} {cs : List Char}
    (h : isPySpace c = true) :
    collapseGo false (c :: cs) = ' ' :: collapseGo true cs := by
  simp [collapseGo, h]

theorem collapseGo_cons_ws_true {c : Char} {cs : List Char}
    (h : isPySpace c = true) :
    collapseGo true (c :: cs) = collapseGo true cs := by
  simp [collapseGo, h]

theorem collapseGo_cons_nonws {b : Bool} {c : Char} {cs : List Char}
    (h : isPySpace c = false) :
    collapseGo b (c :: cs) = c :: collapseGo false cs := by
  simp [collapseGo, h]

theorem collapseGo_id : ∀ l : List Char, wsOnlySp l = true →
    noPair dblSp l = true → collapseGo false l = l := by
  intro l
  induction l with
  | nil => intro _ _; rfl
  | cons c cs ih =>
    intro hws hdbl
    by_cases hc : isPySpace c
    · have hcsp : c = ' ' := eq_sp_of_space hc (wsOnlySp_head hws)
      subst hcsp
      rw [collapseGo_cons_ws_false isPySpace_sp]
      cases cs with
      | nil => rfl
      | cons d ds =>
        have hdnw : isPySpace d = false := by
          by_contra hg
          have hg' : isPySpace d = true := by simpa using hg
          have hdsp : d = ' ' :=
            eq_sp_of_space hg' (wsOnlySp_head (wsOnlySp_tail hws))
          have hp := noPair_head hdbl
          rw [hdsp] at hp
          simp [dblSp] at hp
        rw [collapseGo_cons_nonws hdnw]
        have := ih (wsOnlySp_tail hws) (noPair_tail hdbl)
        rw [collapseGo_cons_nonws hdnw] at this
        rw [this]
    · have hc' : isPySpace c = false := by simpa using hc
      rw [collapseGo_cons_nonws hc']
      rw [ih (wsOnlySp_tail hws) (noPair_tail hdbl)]

theorem dropTrail_id : ∀ l : List Char, lastOk l = true → dropTrail l = l := by
  intro l
  induction l with
  | nil => intro _; rfl
  | cons c cs ih =>
    intro h
    cases cs with
    | nil =>
      have hc : isPySpace c = false := by
        have : (!isPySpace c) = true := h
        simpa using this
      rw [dropTrail_cons]
      simp only [hc]
      rfl
    | cons d ds =>
      rw [dropTrail_cons, ih (lastOk_tail h)]

theorem yoYe_id {c : Char} (h1 : (c == 'Ё') = false) (h2 : (c == 'ё') = false) :
    yoYe c = c := by
  unfold yoYe
  rw [if_neg (by simpa using h1), if_neg (by simpa using h2)]

theorem map_yoYe_id : ∀ l : List Char, noYo l = true → l.map yoYe = l := by
  intro l
  induction l with
  | nil => intro _; rfl
  | cons c cs ih =>
    intro h
    have hc : ((!(c == 'Ё') && !(c == 'ё')) && noYo cs) = true := h
    simp only [Bool.and_eq_true, Bool.not_eq_true'] at hc
    rw [List.map_cons, yoYe_id hc.1.1 hc.1.2, ih hc.2]

/-- `normalize_name` (as a function on character lists) is idempotent. -/
theorem normList_idem (x : List Char) : normList (normList x) = normList x := by
  have hws1 : wsOnlySp (pyStrip (collapseGo false x)) = true :=
    wsOnlySp_pyStrip (wsOnlySp_collapseGo false x)
  have hdb1 : noPair dblSp (pyStrip (collapseGo false x)) = true :=
    noDbl_pyStrip (noDbl_collapseGo false x)
  have hho1 : headOk (pyStrip (collapseGo false x)) = true := headOk_pyStrip _
  have hlo1 : lastOk (pyStrip (collapseGo false x)) = true := lastOk_pyStrip _
  set s2 : List Char := (pyStrip (collapseGo false x)).map yoYe with hs2
  have hws2 : wsOnlySp s2 = true := wsOnlySp_map_yoYe hws1
  have hdb2 : noPair dblSp s2 = true :=
    noPair_map_yoYe (fun a b => by unfold dblSp; rw [yoYe_beq_sp, yoYe_beq_sp]) hdb1
  have hho2 : headOk s2 = true := headOk_map_yoYe hho1
  have hlo2 : lastOk s2 = true := lastOk_map_yoYe hlo1
  have hyo2 : noYo s2 = true := noYo_map_yoYe _
  set z : List Char := sub3 s2 with hz
  have hwsz : wsOnlySp z = true := wsOnlySp_sub3 hws2
  obtain ⟨hdbz, hspz, hdsz⟩ := sub3_pairs s2.length s2 (le_refl _) hws2 hdb2
  have hloz : lastOk z = true := sub3_lastOk s2.length s2 (le_refl _) hlo2
  have hhoz : headOk z = true := sub3_headOk hho2
  have hyoz : noYo z = true := noYo_sub3 hyo2
  set y : List Char := sub4 z with hy
  have hwsy : wsOnlySp y = true := wsOnlySp_sub4 hwsz
  have hdby : noPair dblSp y = true := sub4_noDbl z.length z (le_refl _) hwsz hdbz
  have hloy : lastOk y = true := sub4_lastOk z.length z (le_refl _) hloz
  have hyoy : noYo y = true := noYo_sub4 hyoz
  show normList y = y
  unfold normList
  rw [collapseGo_id y hwsy hdby]
  unfold pyStrip
  rw [dropTrail_id _ (lastOk_suffix (List.dropWhile_suffix _) hloy)]
  rw [map_yoYe_id _ (noYo_sublist (List.dropWhile_suffix _).sublist hyoy)]
  rw [hy]
  rw [sub34_key z.length z (le_refl _) hwsz hdbz hspz hdsz]
  rw [headOk_dropWhile_self hhoz]

/-- C4: name canonicalization is idempotent: for every input string `x`,
`normalize_name (normalize_name x) = normalize_name x`, where `normalize_name`
is the pipeline of whitespace collapse and trim, yo-to-ye replacement, removal
of whitespace around periods, and re-spacing of the surname-plus-two-initials
block (`bmstu_teachers_tool.normalize_name`). -/
theorem C4_normalize_name_idempotent (s : String) :
    normalize_name (normalize_name s) = normalize_name s := by
  unfold normalize_name
  have hd : (String.mk (normList s.data)).data = normList s.data := rfl
  rw [hd, normList_idem]

/-! ### C9: yo/ye spelling variants -/

/-- The two characters agree, or are the upper/lower yo-vs-ye pair. -/
def yoPairOk (c d : Char) : Bool :=
  c == d || (c == 'Ё' && d == 'Е') || (c == 'Е' && d == 'Ё') ||
  (c == 'ё' && d == 'е') || (c == 'е' && d == 'ё')

/-- The two strings differ only in occurrences of the Cyrillic yo letter
versus the corresponding ye letter (in either case). -/
def yoEquiv : List Char → List Char → Bool
  | [], [] => true
  | c :: cs, d :: ds => yoPairOk c d && yoEquiv cs ds
  | _, _ => false

theorem yoPairOk_cases {c d : Char} (h : yoPairOk c d = true) :
    c = d ∨ (c = 'Ё' ∧ d = 'Е') ∨ (c = 'Е' ∧ d = 'Ё') ∨
      (c = 'ё' ∧ d = 'е') ∨ (c = 'е' ∧ d = 'ё') := by
  unfold yoPairOk at h
  simp only [Bool.or_eq_true, Bool.and_eq_true, beq_iff_eq] at h
  tauto

theorem yoPairOk_ws {c d : Char} (h : yoPairOk c d = true) :
    isPySpace c = isPySpace d := by
  rcases yoPairOk_cases h with rfl | ⟨rfl, rfl⟩ | ⟨rfl, rfl⟩ | ⟨rfl, rfl⟩ | ⟨rfl, rfl⟩
  · rfl
  all_goals decide

theorem yoPairOk_yoYe {c d : Char} (h : yoPairOk c d = true) : yoYe c = yoYe d := by
  rcases yoPairOk_cases h with rfl | ⟨rfl, rfl⟩ | ⟨rfl, rfl⟩ | ⟨rfl, rfl⟩ | ⟨rfl, rfl⟩
  · rfl
  all_goals decide

theorem yoEquiv_cons {c d : Char} {cs ds : List Char} :
    yoEquiv (c :: cs) (d :: ds) = (yoPairOk c d && yoEquiv cs ds) := rfl

theorem yoEquiv_nil_iff : ∀ {l₁ l₂ : List Char}, yoEquiv l₁ l₂ = true →
    (l₁ = [] ↔ l₂ = []) := by
  intro l₁ l₂ h
  cases l₁ with
  | nil =>
    cases l₂ with
    | nil => simp
    | cons d ds => exact absurd h (by simp [yoEquiv])
  | cons c cs =>
    cases l₂ with
    | nil => exact absurd h (by simp [yoEquiv])
    | cons d ds => simp

theorem yoEquiv_collapseGo : ∀ (b : Bool) {l₁ l₂ : List Char},
    yoEquiv l₁ l₂ = true → yoEquiv (collapseGo b l₁) (collapseGo b l₂) = true := by
  intro b l₁
  induction l₁ generalizing b with
  | nil =>
    intro l₂ h
    cases l₂ with
    | nil => rfl
    | cons d ds => exact absurd h (by simp [yoEquiv])
  | cons c cs ih =>
    intro l₂ h
    cases l₂ with
    | nil => exact absurd h (by simp [yoEquiv])
    | cons d ds =>
      rw [yoEquiv_cons, Bool.and_eq_true] at h
      obtain ⟨hp, ht⟩ := h
      have hwseq := yoPairOk_ws hp
      by_cases hc : isPySpace c
      · have hd : isPySpace d = true := hwseq ▸ hc
        cases b with
        | true =>
          rw [collapseGo_cons_ws_true hc, collapseGo_cons_ws_true hd]
          exact ih true ht
        | false =>
          rw [collapseGo_cons_ws_false hc, collapseGo_cons_ws_false hd]
          rw [yoEquiv_cons]
          simp only [Bool.and_eq_true]
          exact ⟨by simp [yoPairOk], ih true ht⟩
      · have hc' : isPySpace c = false := by simpa using hc
        have hd' : isPySpace d = false := hwseq ▸ hc'
        rw [collapseGo_cons_nonws hc', collapseGo_cons_nonws hd']
        rw [yoEquiv_cons]
        simp only [Bool.and_eq_true]
        exact ⟨hp, ih false ht⟩

theorem yoEquiv_dropWhile : ∀ {l₁ l₂ : List Char}, yoEquiv l₁ l₂ = true →
    yoEquiv (l₁.dropWhile isPySpace) (l₂.dropWhile isPySpace) = true := by
  intro l₁
  induction l₁ with
  | nil =>
    intro l₂ h
    cases l₂ with
    | nil => rfl
    | cons d ds => exact absurd h (by simp [yoEquiv])
  | cons c cs ih =>
    intro l₂ h
    cases l₂ with
    | nil => exact absurd h (by simp [yoEquiv])
    | cons d ds =>
      rw [yoEquiv_cons, Bool.and_eq_true] at h
      obtain ⟨hp, ht⟩ := h
      have hwseq := yoPairOk_ws hp
      by_cases hc : isPySpace c
      · have hd : isPySpace d = true := hwseq ▸ hc
        rw [List.dropWhile_cons, if_pos hc, List.dropWhile_cons, if_pos hd]
        exact ih ht
      · have hc' : isPySpace c = false := by simpa using hc
        have hd' : isPySpace d = false := hwseq ▸ hc'
        rw [dropWhile_cons_nonws hc', dropWhile_cons_nonws hd', yoEquiv_cons]
        simp only [Bool.and_eq_true]
        exact ⟨hp, ht⟩

theorem yoEquiv_dropTrail : ∀ {l₁ l₂ : List Char}, yoEquiv l₁ l₂ = true →
    yoEquiv (dropTrail l₁) (dropTrail l₂) = true := by
  intro l₁
  induction l₁ with
  | nil =>
    intro l₂ h
    cases l₂ with
    | nil => rfl
    | cons d ds => exact absurd h (by simp [yoEquiv])
  | cons c cs ih =>
    intro l₂ h
    cases l₂ with
    | nil => exact absurd h (by simp [yoEquiv])
    | cons d ds =>
      rw [yoEquiv_cons, Bool.and_eq_true] at h
      obtain ⟨hp, ht⟩ := h
      have hrec := ih ht
      rw [dropTrail_cons, dropTrail_cons]
      cases h1 : dropTrail cs with
      | nil =>
        have h2 : dropTrail ds = [] := by
          have h1' := hrec
          rw [h1] at h1'
          exact (yoEquiv_nil_iff h1').mp rfl
        rw [h2]
        show yoEquiv (if isPySpace c then [] else [c])
          (if isPySpace d then [] else [d]) = true
        have hwseq := yoPairOk_ws hp
        by_cases hc : isPySpace c
        · rw [if_pos hc, if_pos (hwseq ▸ hc)]
          rfl
        · have hc' : isPySpace c = false := by simpa using hc
          have hd' : isPySpace d = false := hwseq ▸ hc'
          rw [if_neg (by simp [hc']), if_neg (by simp [hd'])]
          show (yoPairOk c d && yoEquiv [] []) = true
          rw [hp]
          rfl
      | cons x t =>
        obtain ⟨x2, t2, h3⟩ : ∃ x2 t2, dropTrail ds = x2 :: t2 := by
          cases h3 : dropTrail ds with
          | nil =>
            have h1' := hrec
            rw [h1, h3] at h1'
            exact absurd h1' (by simp [yoEquiv])
          | cons x2 t2 => exact ⟨x2, t2, rfl⟩
        rw [h3]
        show yoEquiv (c :: x :: t) (d :: x2 :: t2) = true
        have hxx : yoEquiv (x :: t) (x2 :: t2) = true := by
          have h1' := hrec
          rw [h1, h3] at h1'
          exact h1'
        rw [yoEquiv_cons]
        simp [hp, hxx]

theorem yoEquiv_map_yoYe : ∀ {l₁ l₂ : List Char}, yoEquiv l₁ l₂ = true →
    l₁.map yoYe = l₂.map yoYe := by
  intro l₁
  induction l₁ with
  | nil =>
    intro l₂ h
    cases l₂ with
    | nil => rfl
    | cons d ds => exact absurd h (by simp [yoEquiv])
  | cons c cs ih =>
    intro l₂ h
    cases l₂ with
    | nil => exact absurd h (by simp [yoEquiv])
    | cons d ds =>
      rw [yoEquiv_cons, Bool.and_eq_true] at h
      rw [List.map_cons, List.map_cons, yoPairOk_yoYe h.1, ih h.2]

/-- C9: two name strings that differ only in yo-vs-ye letter occurrences
canonicalize to the same key under `normalize_name`. -/
theorem C9_yo_ye_same_key (x y : String) (h : yoEquiv x.data y.data = true) :
    normalize_name x = normalize_name y := by
  unfold normalize_name normList pyStrip
  rw [yoEquiv_map_yoYe (yoEquiv_dropTrail (yoEquiv_dropWhile
    (yoEquiv_collapseGo false h)))]

/-- Witness for C9 at a concrete pair of spellings. -/
theorem C9_yo_ye_same_key_witness :
    yoEquiv ("Семёнов С.С.").data ("Семенов С.С.").data = true ∧
      normalize_name "Семёнов С.С." = normalize_name "Семенов С.С." :=
  ⟨by decide, C9_yo_ye_same_key "Семёнов С.С." "Семенов С.С." (by decide)⟩

/-! ### Teacher index building (`bmstu_teachers_tool.build_index`) -/

/-- The `Lesson` dataclass of `bmstu_teachers_tool.py`. -/
structure Lesson where
  group : String
  subject : String
  day : String
  time : String
  room : Option String
  teacher : String
deriving DecidableEq

/-- The per-lesson dictionary appended to `teachers_index[key]` in
`build_index` (the `entry` literal of lines 366-372): it carries the five
fields group, subject, day, time and room. -/
structure Entry where
  group : String
  subject : String
  day : String
  time : String
  room : Option String
deriving DecidableEq

def toEntry (L : Lesson) : Entry :=
  { group := L.group, subject := L.subject, day := L.day, time := L.time,
    room := L.room }

/-- One iteration of the indexing loop of `build_index` (lines 363-376):
`key = normalize_name(L.teacher)`, and the entry is appended only when
`entry not in teachers_index[key]`.  The index is modelled as a total map
with default `[]` (the `defaultdict(list)`). -/
def insertLesson (idx : String → List Entry) (L : Lesson) : String → List Entry :=
  fun k =>
    if k = normalize_name L.teacher then
      if toEntry L ∈ idx k then idx k else idx k ++ [toEntry L]
    else idx k

def emptyIndex : String → List Entry := fun _ => []

/-- The teacher index built from a stream of parsed lessons. -/
def buildIndexL (ls : List Lesson) : String → List Entry :=
  ls.foldl insertLesson emptyIndex

/-- The teacher index built from a list of payloads (each payload being the
lesson list parsed from one group's calendar); `build_index` iterates the
payloads and, within each payload, its lessons in order. -/
def buildIndexP (ps : List (List Lesson)) : String → List Entry :=
  buildIndexL ps.flatten

def lessonRoomA : Lesson :=
  { group := "ИУ3-45Б", subject := "Математика", day := "Понедельник",
    time := "10:15–11:50", room := some "101", teacher := "Иванов И.И." }

def lessonRoomB : Lesson :=
  { group := "ИУ3-45Б", subject := "Математика", day := "Понедельник",
    time := "10:15–11:50", room := some "102", teacher := "Иванов И.И." }

/-- C1: the dedup test of `build_index` compares the whole five-field entry,
`room` included, so two lessons agreeing on (group, subject, day, time) but
with different room strings are BOTH kept (list of length 2), contradicting
the claim (and the code's own comment) that room is not part of the identity;
only a fully identical lesson is deduplicated to a single entry. -/
theorem C1_room_in_dedup_identity :
    (buildIndexL [lessonRoomA, lessonRoomB] "Иванов И.И.").length = 2 ∧
      (buildIndexL [lessonRoomA, lessonRoomA] "Иванов И.И.").length = 1 ∧
      buildIndexL [lessonRoomA, lessonRoomB] "Иванов И.И." =
        [toEntry lessonRoomA, toEntry lessonRoomB] := by
  refine ⟨?_, ?_, ?_⟩ <;> decide

theorem mem_insertLesson {idx : String → List Entry} {L : Lesson} {k : String}
    {e : Entry} :
    e ∈ insertLesson idx L k ↔
      e ∈ idx k ∨ (k = normalize_name L.teacher ∧ e = toEntry L) := by
  unfold insertLesson
  by_cases hk : k = normalize_name L.teacher
  · rw [if_pos hk]
    by_cases hmem : toEntry L ∈ idx k
    · rw [if_pos hmem]
      constructor
      · exact fun h => Or.inl h
      · rintro (h | ⟨-, rfl⟩)
        · exact h
        · exact hmem
    · rw [if_neg hmem]
      rw [List.mem_append, List.mem_singleton]
      constructor
      · rintro (h | rfl)
        · exact Or.inl h
        · exact Or.inr ⟨hk, rfl⟩
      · rintro (h | ⟨-, rfl⟩)
        · exact Or.inl h
        · exact Or.inr rfl
  · rw [if_neg hk]
    constructor
    · exact fun h => Or.inl h
    · rintro (h | ⟨hk2, -⟩)
      · exact h
      · exact absurd hk2 hk

theorem mem_foldl_insertLesson : ∀ (ls : List Lesson) (idx : String → List Entry)
    (k : String) (e : Entry),
    e ∈ (ls.foldl insertLesson idx) k ↔
      e ∈ idx k ∨ ∃ L ∈ ls, k = normalize_name L.teacher ∧ e = toEntry L := by
  intro ls
  induction ls with
  | nil =>
    intro idx k e
    simp
  | cons L ls ih =>
    intro idx k e
    rw [List.foldl_cons, ih]
    rw [mem_insertLesson]
    constructor
    · rintro ((h | h) | ⟨L2, hL2, hk, he⟩)
      · exact Or.inl h
      · exact Or.inr ⟨L, List.mem_cons_self L ls, h.1, h.2⟩
      · exact Or.inr ⟨L2, List.mem_cons_of_mem L hL2, hk, he⟩
    · rintro (h | ⟨L2, hL2, hk, he⟩)
      · exact Or.inl (Or.inl h)
      · rcases List.mem_cons.mp hL2 with rfl | hL2'
        · exact Or.inl (Or.inr ⟨hk, he⟩)
        · exact Or.inr ⟨L2, hL2', hk, he⟩

theorem mem_buildIndexL {ls : List Lesson} {k : String} {e : Entry} :
    e ∈ buildIndexL ls k ↔
      ∃ L ∈ ls, k = normalize_name L.teacher ∧ e = toEntry L := by
  unfold buildIndexL
  rw [mem_foldl_insertLesson]
  simp [emptyIndex]

/-- C7: index building is order-independent.  Permuting the payload sequence
yields, for every teacher key, the same finite set of entries, and in
particular the same set of non-empty keys. -/
theorem C7_index_build_order_independent (ps₁ ps₂ : List (List Lesson))
    (hperm : ps₁.Perm ps₂) (k : String) :
    (buildIndexP ps₁ k).toFinset = (buildIndexP ps₂ k).toFinset ∧
      (buildIndexP ps₁ k = [] ↔ buildIndexP ps₂ k = []) := by
  have hflat : ps₁.flatten.Perm ps₂.flatten := hperm.flatten
  have hmem : ∀ e : Entry, e ∈ buildIndexP ps₁ k ↔ e ∈ buildIndexP ps₂ k := by
    intro e
    unfold buildIndexP
    rw [mem_buildIndexL, mem_buildIndexL]
    constructor
    · rintro ⟨L, hL, hk, he⟩
      exact ⟨L, hflat.mem_iff.mp hL, hk, he⟩
    · rintro ⟨L, hL, hk, he⟩
      exact ⟨L, hflat.mem_iff.mpr hL, hk, he⟩
  constructor
  · ext e
    rw [List.mem_toFinset, List.mem_toFinset]
    exact hmem e
  · rw [List.eq_nil_iff_forall_not_mem, List.eq_nil_iff_forall_not_mem]
    constructor
    · intro h e he
      exact h e ((hmem e).mpr he)
    · intro h e he
      exact h e ((hmem e).mp he)

def lessonOther : Lesson :=
  { group := "ИУ3-45Б", subject := "Физика", day := "Вторник",
    time := "12:00–13:30", room := none, teacher := "Петров П.П." }

/-- Witness for C7 at a concrete permuted pair of payload lists. -/
theorem C7_index_build_order_independent_witness :
    ([[lessonRoomA], [lessonOther]] : List (List Lesson)).Perm
        [[lessonOther], [lessonRoomA]] ∧
      ((buildIndexP [[lessonRoomA], [lessonOther]] "Иванов И.И.").toFinset =
          (buildIndexP [[lessonOther], [lessonRoomA]] "Иванов И.И.").toFinset ∧
        (buildIndexP [[lessonRoomA], [lessonOther]] "Иванов И.И." = [] ↔
          buildIndexP [[lessonOther], [lessonRoomA]] "Иванов И.И." = [])) :=
  ⟨List.Perm.swap _ _ _, C7_index_build_order_independent _ _
    (List.Perm.swap _ _ _) "Иванов И.И."⟩

/-! ### Search (`bmstu_teachers_tool.search_index` and
`teacher_schedule_parser.search_teacher_schedule`) -/

/-- Python `str.lower()`, restricted to ASCII letters and Cyrillic letters
(U+0400-U+042F); identity on all other characters appearing in this data. -/
def pyLowerChar (c : Char) : Char :=
  if 0x41 ≤ c.toNat ∧ c.toNat ≤ 0x5A then Char.ofNat (c.toNat + 0x20)
  else if 0x400 ≤ c.toNat ∧ c.toNat ≤ 0x40F then Char.ofNat (c.toNat + 0x50)
  else if 0x410 ≤ c.toNat ∧ c.toNat ≤ 0x42F then Char.ofNat (c.toNat + 0x20)
  else c

/-- Python's substring test `q in s` on code-point sequences. -/
def isSubstring : List Char → List Char → Bool
  | q, [] => q.isEmpty
  | q, s@(_ :: t) => q.isPrefixOf s || isSubstring q t

/-- `search_teacher_schedule` from `teacher_schedule_parser.py`:
`q = query.strip().lower()`; keep the (name, lessons) pairs whose name
contains `q` case-insensitively. -/
def search_teacher_schedule {α : Type} (ts : List (String × α)) (query : String) :
    List (String × α) :=
  ts.filter (fun p =>
    isSubstring ((pyStrip query.data).map pyLowerChar) (p.1.data.map pyLowerChar))

/-- The first whitespace-delimited token of a Python `str.split()` (all the
fallback pass of `search_index` uses). -/
def firstToken (l : List Char) : Option (List Char) :=
  match l.dropWhile isPySpace with
  | [] => none
  | rest => some (rest.takeWhile (fun c => !isPySpace c))

/-- The sort key comparison of `search_index`: `(len(k), k)` ascending. -/
def lenLexLe (a b : String) : Bool :=
  a.length < b.length || (a.length == b.length && decide (a ≤ b))

/-- Stable insertion into a sorted list (ties keep the earlier element first,
as Python's stable `sorted`). -/
def insSorted {α : Type} (le : α → α → Bool) (a : α) :
    List α → List α
  | [] => [a]
  | b :: l => if le a b then a :: b :: l else b :: insSorted le a l

/-- A stable sort, modelling Python's `sorted` with a key function. -/
def pySorted {α : Type} (le : α → α → Bool) : List α → List α
  | [] => []
  | a :: l => insSorted le a (pySorted le l)

/-- First pass of `search_index` (line 397): the keys whose normalized form
contains the normalized query as a substring. -/
def pass1 (keys : List String) (q : String) : List String :=
  keys.filter (fun k => isSubstring q.data (normalize_name k).data)

/-- Fallback pass of `search_index` (lines 400-404): if the query has at
least one whitespace-separated token, filter by its first token; an empty
query yields nothing. -/
def passFallback (keys : List String) (q : String) : List String :=
  match firstToken q.data with
  | none => []
  | some p => keys.filter (fun k => isSubstring p (normalize_name k).data)

/-- The candidate key set of `search_index`: the fallback pass runs exactly
when the first pass found nothing. -/
def candidateKeys (keys : List String) (q : String) : List String :=
  if (pass1 keys q).isEmpty then passFallback keys q else pass1 keys q

/-- The list of teacher keys printed by `search_index` (lines 388-411):
substring pass over normalized keys, fallback on the first token of the
query, "no matches" as an empty result, then sort by (length, lexicographic)
truncated to `topn`. -/
def search_index_keys (keys : List String) (query : String) (topn : Nat) :
    List String :=
  if (candidateKeys keys (normalize_name query)).isEmpty then []
  else (pySorted lenLexLe (candidateKeys keys (normalize_name query))).take topn

/-- C2 counterexample: with the index key "Иванов И.И.", the lower-case query
"иванов" returns no keys from `search_index` (its matching is case-sensitive:
`normalize_name` never changes letter case), refuting the claim that it
returns `["Иванов И.И."]`. -/
theorem C2_counterexample :
    search_index_keys ["Иванов И.И."] "иванов" 20 = [] ∧
      search_index_keys ["Иванов И.И."] "иванов" 20 ≠ ["Иванов И.И."] := by
  refine ⟨?_, ?_⟩ <;> decide

/-- C2 amended: `search_teacher_schedule` (the API-side search) is
case-insensitive — any letter-case variant of "иванов" returns exactly the
key "Иванов И.И." — while `search_index` (the calendar-tool search) matches
case-sensitively: the query "Иванов" returns the key, the query "иванов"
returns nothing. -/
theorem C2_search_case_sensitivity {α : Type} (q : String) (v : α)
    (hq : (pyStrip q.data).map pyLowerChar = "иванов".data) :
    (search_teacher_schedule [("Иванов И.И.", v)] q).map Prod.fst =
        ["Иванов И.И."] ∧
      search_index_keys ["Иванов И.И."] "Иванов" 20 = ["Иванов И.И."] ∧
      search_index_keys ["Иванов И.И."] "иванов" 20 = [] := by
  refine ⟨?_, by decide, by decide⟩
  unfold search_teacher_schedule
  rw [hq]
  have hP : isSubstring ("иванов").data
      ((("Иванов И.И." : String)).data.map pyLowerChar) = true := by decide
  rw [List.filter_cons, List.filter_nil]
  split
  · rfl
  · rename_i hcond
    exact absurd hP hcond

/-- Witness for the amended C2 at the all-caps query "ИВАНОВ". -/
theorem C2_search_case_sensitivity_witness :
    (pyStrip ("ИВАНОВ").data).map pyLowerChar = "иванов".data ∧
      ((search_teacher_schedule [("Иванов И.И.", 0)] "ИВАНОВ").map Prod.fst =
          ["Иванов И.И."] ∧
        search_index_keys ["Иванов И.И."] "Иванов" 20 = ["Иванов И.И."] ∧
        search_index_keys ["Иванов И.И."] "иванов" 20 = []) :=
  ⟨by decide, C2_search_case_sensitivity "ИВАНОВ" 0 (by decide)⟩

/-! ### Properties of the sort used by `search_index` -/

theorem lenLexLe_iff (a b : String) :
    lenLexLe a b = true ↔ a.length < b.length ∨ (a.length = b.length ∧ a ≤ b) := by
  simp [lenLexLe]

theorem lenLexLe_total (a b : String) :
    lenLexLe a b = true ∨ lenLexLe b a = true := by
  rw [lenLexLe_iff, lenLexLe_iff]
  rcases Nat.lt_trichotomy a.length b.length with h | h | h
  · exact Or.inl (Or.inl h)
  · rcases le_total a b with hle | hle
    · exact Or.inl (Or.inr ⟨h, hle⟩)
    · exact Or.inr (Or.inr ⟨h.symm, hle⟩)
  · exact Or.inr (Or.inl h)

theorem lenLexLe_trans {a b c : String} (h₁ : lenLexLe a b = true)
    (h₂ : lenLexLe b c = true) : lenLexLe a c = true := by
  rw [lenLexLe_iff] at h₁ h₂ ⊢
  rcases h₁ with h₁ | ⟨e₁, l₁⟩
  · rcases h₂ with h₂ | ⟨e₂, l₂⟩
    · exact Or.inl (h₁.trans h₂)
    · exact Or.inl (lt_of_lt_of_le h₁ (le_of_eq e₂))
  · rcases h₂ with h₂ | ⟨e₂, l₂⟩
    · exact Or.inl (lt_of_le_of_lt (le_of_eq e₁) h₂)
    · exact Or.inr ⟨e₁.trans e₂, l₁.trans l₂⟩

theorem mem_insSorted {α : Type} (le : α → α → Bool) (a x : α)
    (l : List α) : x ∈ insSorted le a l ↔ x = a ∨ x ∈ l := by
  induction l with
  | nil => simp [insSorted]
  | cons b t ih =>
    rw [insSorted]
    by_cases hab : le a b = true
    · rw [if_pos hab]
      simp [List.mem_cons]
    · rw [if_neg hab]
      simp only [List.mem_cons, ih]
      tauto

theorem perm_insSorted {α : Type} (le : α → α → Bool) (a : α)
    (l : List α) : (insSorted le a l).Perm (a :: l) := by
  induction l with
  | nil => exact List.Perm.refl _
  | cons b t ih =>
    rw [insSorted]
    by_cases hab : le a b = true
    · rw [if_pos hab]
    · rw [if_neg hab]
      exact (List.Perm.cons b ih).trans (List.Perm.swap a b t)

theorem perm_pySorted {α : Type} (le : α → α → Bool) (l : List α) :
    (pySorted le l).Perm l := by
  induction l with
  | nil => exact List.Perm.refl _
  | cons a t ih =>
    rw [pySorted]
    exact (perm_insSorted le a (pySorted le t)).trans (List.Perm.cons a ih)

theorem pairwise_insSorted (a : String) (l : List String)
    (h : l.Pairwise fun x y => lenLexLe x y = true) :
    (insSorted lenLexLe a l).Pairwise fun x y => lenLexLe x y = true := by
  induction l with
  | nil => simp [insSorted]
  | cons b t ih =>
    rw [List.pairwise_cons] at h
    rw [insSorted]
    by_cases hab : lenLexLe a b = true
    · rw [if_pos hab, List.pairwise_cons]
      refine ⟨?_, List.pairwise_cons.mpr h⟩
      intro x hx
      rcases List.mem_cons.mp hx with hx | hx
      · exact hx.symm ▸ hab
      · exact lenLexLe_trans hab (h.1 x hx)
    · rw [if_neg hab, List.pairwise_cons]
      refine ⟨?_, ih h.2⟩
      intro x hx
      rcases (mem_insSorted lenLexLe a x t).mp hx with hx | hx
      · rcases lenLexLe_total a b with htot | htot
        · exact absurd htot hab
        · exact hx.symm ▸ htot
      · exact h.1 x hx

theorem pairwise_pySorted (l : List String) :
    (pySorted lenLexLe l).Pairwise fun x y => lenLexLe x y = true := by
  induction l with
  | nil => simp [pySorted]
  | cons a t ih =>
    rw [pySorted]
    exact pairwise_insSorted a (pySorted lenLexLe t) ih

theorem candidateKeys_of_pass1_ne_nil (keys : List String) (q : String)
    (h : pass1 keys q ≠ []) : candidateKeys keys q = pass1 keys q := by
  unfold candidateKeys
  cases hp : pass1 keys q with
  | nil => exact absurd hp h
  | cons a t => rfl

theorem candidateKeys_of_pass1_nil (keys : List String) (q : String)
    (h : pass1 keys q = []) : candidateKeys keys q = passFallback keys q := by
  unfold candidateKeys
  rw [h]
  rfl

theorem search_index_keys_eq_sorted_take (keys : List String) (query : String)
    (topn : Nat) : search_index_keys keys query topn =
      (pySorted lenLexLe (candidateKeys keys (normalize_name query))).take topn := by
  unfold search_index_keys
  cases hc : candidateKeys keys (normalize_name query) with
  | nil => simp [pySorted]
  | cons a t => rfl

theorem mem_candidateKeys (keys : List String) (q k : String)
    (hk : k ∈ candidateKeys keys q) : k ∈ keys := by
  unfold candidateKeys at hk
  split at hk
  · unfold passFallback at hk
    split at hk
    · simp at hk
    · exact (List.mem_filter.mp hk).1
  · exact (List.mem_filter.mp hk).1

/-- C8: `search_index` is a two-pass search. When the substring pass over
normalized keys finds anything, those are the candidates; otherwise the
fallback pass by the query's first token supplies them (an empty fallback
yields an empty result, "Ничего не нашлось"). The printed list is the
candidates sorted ascending by (key length, lexicographic), truncated to
`topn`, and every printed key is a key of the index. -/
theorem C8_search_two_pass (keys : List String) (query : String) (topn : Nat) :
    (pass1 keys (normalize_name query) ≠ [] →
      search_index_keys keys query topn =
        (pySorted lenLexLe (pass1 keys (normalize_name query))).take topn) ∧
    (pass1 keys (normalize_name query) = [] →
      search_index_keys keys query topn =
        (pySorted lenLexLe (passFallback keys (normalize_name query))).take topn) ∧
    (search_index_keys keys query topn).length ≤ topn ∧
    (search_index_keys keys query topn).Pairwise
      (fun a b => lenLexLe a b = true) ∧
    (∀ k ∈ search_index_keys keys query topn, k ∈ keys) := by
  refine ⟨?_, ?_, ?_, ?_, ?_⟩
  · intro h
    rw [search_index_keys_eq_sorted_take,
      candidateKeys_of_pass1_ne_nil keys (normalize_name query) h]
  · intro h
    rw [search_index_keys_eq_sorted_take,
      candidateKeys_of_pass1_nil keys (normalize_name query) h]
  · rw [search_index_keys_eq_sorted_take, List.length_take]
    exact Nat.min_le_left _ _
  · rw [search_index_keys_eq_sorted_take]
    exact List.Pairwise.sublist (List.take_sublist _ _) (pairwise_pySorted _)
  · intro k hk
    rw [search_index_keys_eq_sorted_take] at hk
    exact mem_candidateKeys keys (normalize_name query) k
      ((perm_pySorted lenLexLe _).mem_iff.mp (List.take_subset _ _ hk))

/-- Witness for C8 on a concrete index: the first pass for "Петров" is
nonempty and the result is the sorted truncation of that pass. -/
theorem C8_search_two_pass_witness :
    pass1 ["Петров П.П.", "Иванов И.И."] (normalize_name "Петров") ≠ [] ∧
      search_index_keys ["Петров П.П.", "Иванов И.И."] "Петров" 20 =
        (pySorted lenLexLe
          (pass1 ["Петров П.П.", "Иванов И.И."] (normalize_name "Петров"))).take 20 :=
  ⟨by decide,
    (C8_search_two_pass ["Петров П.П.", "Иванов И.И."] "Петров" 20).1 (by decide)⟩

/-! ### `_parse_lesson` time fields (`teacher_schedule_parser.py`, lines 132-145) -/

/-- The hour/minute fields of a raw API lesson dict relevant to time
formatting; `none` is an absent key (or a JSON `null`). -/
structure ApiItem where
  startTimeHourNum : Option Int
  startHour : Option Int
  startTimeMinNum : Option Int
  startMinute : Option Int
  endTimeHourNum : Option Int
  endHour : Option Int
  endTimeMinNum : Option Int
  endMinute : Option Int
deriving DecidableEq

/-- Python's `a or b` over integer-or-None values: `a` is kept when truthy,
i.e. present and nonzero; otherwise the chain yields `b` unchanged. -/
def pyOrI (a b : Option Int) : Option Int :=
  match a with
  | some x => if x = 0 then b else some x
  | none => b

/-- `%02d` of an `int`: zero-padded to two characters for 0..9. -/
def pad2i (n : Int) : String :=
  if 0 ≤ n ∧ n < 10 then "0" ++ toString n else toString n

/-- `fmt_time` from `_parse_lesson` (lines 139-142): the empty string when
the hour is `None`, else `"%02d:%02d" % (h, m or 0)`. -/
def fmt_time (h m : Option Int) : String :=
  match h with
  | none => ""
  | some hv =>
      pad2i hv ++ ":" ++
        pad2i (match m with | none => 0 | some mv => if mv = 0 then 0 else mv)

/-- `start_time` of `_parse_lesson`:
`fmt_time(get("startTimeHourNum") or get("startHour"),
get("startTimeMinNum") or get("startMinute") or 0)`. -/
def lessonStartTime (it : ApiItem) : String :=
  fmt_time (pyOrI it.startTimeHourNum it.startHour)
    (pyOrI (pyOrI it.startTimeMinNum it.startMinute) (some 0))

/-- `end_time` of `_parse_lesson`, symmetric to `lessonStartTime`. -/
def lessonEndTime (it : ApiItem) : String :=
  fmt_time (pyOrI it.endTimeHourNum it.endHour)
    (pyOrI (pyOrI it.endTimeMinNum it.endMinute) (some 0))

/-- C10: in `_parse_lesson` an hour of 0 is indistinguishable from a missing
hour. Replacing `startTimeHourNum = 0` by an absent field (and likewise for
the end hour) never changes the formatted time, and when the alternative
hour field is also absent a midnight lesson formats as "" instead of
"00:MM". -/
theorem C10_zero_hour_time_empty (it : ApiItem) :
    (lessonStartTime { it with startTimeHourNum := some 0 } =
      lessonStartTime { it with startTimeHourNum := none }) ∧
    (lessonEndTime { it with endTimeHourNum := some 0 } =
      lessonEndTime { it with endTimeHourNum := none }) ∧
    (it.startTimeHourNum = some 0 → it.startHour = none →
      lessonStartTime it = "") ∧
    (it.endTimeHourNum = some 0 → it.endHour = none →
      lessonEndTime it = "") := by
  refine ⟨rfl, rfl, ?_, ?_⟩
  · intro h1 h2
    rw [lessonStartTime, h1, h2]
    rfl
  · intro h1 h2
    rw [lessonEndTime, h1, h2]
    rfl

/-- Witness for C10: a lesson with `startTimeHourNum = 0`,
`startTimeMinNum = 30` and no other hour fields gets an empty start time. -/
theorem C10_zero_hour_time_empty_witness :
    (({ startTimeHourNum := some 0, startHour := none,
        startTimeMinNum := some 30, startMinute := none,
        endTimeHourNum := some 0, endHour := none,
        endTimeMinNum := none, endMinute := none } : ApiItem).startTimeHourNum
        = some 0) ∧
      lessonStartTime
        { startTimeHourNum := some 0, startHour := none,
          startTimeMinNum := some 30, startMinute := none,
          endTimeHourNum := some 0, endHour := none,
          endTimeMinNum := none, endMinute := none } = "" :=
  ⟨rfl,
    (C10_zero_hour_time_empty
      { startTimeHourNum := some 0, startHour := none,
        startTimeMinNum := some 30, startMinute := none,
        endTimeHourNum := some 0, endHour := none,
        endTimeMinNum := none, endMinute := none }).2.2.1 rfl rfl⟩

/-! ### The `teacher` view (`app.py`, lines 143-216): sort, grid, rows -/

/-- A raw schedule entry as used by the `teacher` handler; `none` is an
absent key (or JSON `null`). -/
structure SchedItem where
  day : Option Int
  time : Option Int
  startTime : Option String
  endTime : Option String
  week : Option String
deriving DecidableEq

/-- `int(item.get("day", 0) or 0)` (also the sort key `int(x.get("day", 0))`). -/
def dayKey (it : SchedItem) : Int := it.day.getD 0

/-- The sort comparison of line 148-151: ascending by `(day, time)` with
missing fields read as 0; a stable sort with this `≤` models Python's
`sorted`. -/
def itemLe (a b : SchedItem) : Bool :=
  dayKey a < dayKey b || (dayKey a == dayKey b && a.time.getD 0 ≤ b.time.getD 0)

/-- `str(item.get("time") or "")`: the empty string when the pair number is
absent or 0, else its decimal form. -/
def timeLabel (it : SchedItem) : String :=
  match it.time with
  | none => ""
  | some t => if t = 0 then "" else toString t

/-- The `time_key` triple of lines 173-177. -/
def timeKeyOf (it : SchedItem) : String × String × String :=
  (it.startTime.getD "", it.endTime.getD "", timeLabel it)

/-- `pick_week_key` (lines 156-160): `(raw or "all").lower()`, then anything
but "ch"/"zn" becomes "all". -/
def pick_week_key (raw : Option String) : String :=
  let base := match raw with
    | none => "all"
    | some s => if s = "" then "all" else s
  let v := String.mk (base.data.map pyLowerChar)
  if v = "ch" ∨ v = "zn" then v else "all"

/-- One step of the grid-building loop (line 182): append the item to its
`(time_key, day, week)` cell, with the grid as a total function into lists. -/
def insertGrid
    (g : (String × String × String) → Int → String → List SchedItem)
    (it : SchedItem) :
    (String × String × String) → Int → String → List SchedItem :=
  fun tk d wk =>
    if tk = timeKeyOf it ∧ d = dayKey it ∧ wk = pick_week_key it.week
    then g tk d wk ++ [it] else g tk d wk

/-- The grid of lines 166-182: fold the sorted schedule into the empty grid. -/
def gridOf (schedule : List SchedItem) :
    (String × String × String) → Int → String → List SchedItem :=
  (pySorted itemLe schedule).foldl insertGrid (fun _ _ _ => [])

/-- Order-preserving deduplication with a `seen` set, as the
`time_keys`/`seen_keys` pair of lines 169-180 (and the week keys of a cell
dict, which iterate in first-insertion order). -/
def dedupAux {α : Type} [DecidableEq α] (seen : List α) : List α → List α
  | [] => []
  | t :: rest =>
      if t ∈ seen then dedupAux seen rest else t :: dedupAux (t :: seen) rest

def dedup {α : Type} [DecidableEq α] (l : List α) : List α := dedupAux [] l

/-- `time_sort_key` (lines 162-164): lexicographic on the label triple
(whose components are already defaulted to ""). -/
def tkLe (a b : String × String × String) : Bool :=
  a.1 < b.1 ||
    (a.1 == b.1 && (a.2.1 < b.2.1 || (a.2.1 == b.2.1 && a.2.2 ≤ b.2.2)))

/-- `week_names.get(wk, wk or "")` (lines 154, 198). -/
def weekNamesGet (wk : String) : String :=
  if wk = "all" then "Все недели"
  else if wk = "ch" then "Числитель"
  else if wk = "zn" then "Знаменатель"
  else if wk = "" then "" else wk

/-- The week keys present in the `(time_key, day)` cell dict, in insertion
order: first occurrence over the sorted schedule. -/
def weekKeysAt (sorted : List SchedItem) (tk : String × String × String)
    (d : Int) : List String :=
  dedup ((sorted.filter
    (fun it => timeKeyOf it = tk ∧ dayKey it = d)).map
      (fun it => pick_week_key it.week))

/-- A rendered cell (lines 191-208). -/
structure Cell where
  all : List SchedItem
  ch : List SchedItem
  zn : List SchedItem
  other : List (String × String × List SchedItem)
  has_content : Bool
deriving DecidableEq

/-- `cell_map[day]` of lines 190-208. -/
def cellAt (schedule : List SchedItem) (tk : String × String × String)
    (d : Int) : Cell :=
  let g := gridOf schedule
  let wks := weekKeysAt (pySorted itemLe schedule) tk d
  let other := (wks.filter (fun wk =>
      ¬(wk = "all" ∨ wk = "ch" ∨ wk = "zn") ∧ g tk d wk ≠ [])).map
    (fun wk => (wk, weekNamesGet wk, g tk d wk))
  { all := g tk d "all", ch := g tk d "ch", zn := g tk d "zn",
    other := other,
    has_content := !(g tk d "all").isEmpty || !(g tk d "ch").isEmpty ||
      !(g tk d "zn").isEmpty || !other.isEmpty }

/-- A row of `timetable_rows` (lines 209-216); `endKey` stands for the
source's "end" key. -/
structure Row where
  start : String
  endKey : String
  pair : String
  cells : List (Int × Cell)
deriving DecidableEq

/-- `day_order` (line 185). -/
def dayOrder : List Int := [1, 2, 3, 4, 5, 6, 7]

/-- `timetable_rows` (lines 169-216): time keys in first-occurrence order
over the sorted schedule, sorted by `time_sort_key`, each with a cell per
day of `day_order`. -/
def timetable_rows (schedule : List SchedItem) : List Row :=
  let sorted := pySorted itemLe schedule
  let tks := pySorted tkLe (dedup (sorted.map timeKeyOf))
  tks.map (fun tk =>
    { start := tk.1, endKey := tk.2.1, pair := tk.2.2,
      cells := dayOrder.map (fun d => (d, cellAt schedule tk d)) })

theorem insertGrid_pos
    (g : (String × String × String) → Int → String → List SchedItem)
    (a : SchedItem) (tk : String × String × String) (d : Int) (wk : String)
    (h : tk = timeKeyOf a ∧ d = dayKey a ∧ wk = pick_week_key a.week) :
    insertGrid g a tk d wk = g tk d wk ++ [a] := by
  simp only [insertGrid]
  rw [if_pos h]

theorem insertGrid_neg
    (g : (String × String × String) → Int → String → List SchedItem)
    (a : SchedItem) (tk : String × String × String) (d : Int) (wk : String)
    (h : ¬(tk = timeKeyOf a ∧ d = dayKey a ∧ wk = pick_week_key a.week)) :
    insertGrid g a tk d wk = g tk d wk := by
  simp only [insertGrid]
  rw [if_neg h]

theorem foldl_insertGrid (l : List SchedItem)
    (g : (String × String × String) → Int → String → List SchedItem)
    (tk : String × String × String) (d : Int) (wk : String) :
    (l.foldl insertGrid g) tk d wk =
      g tk d wk ++ l.filter
        (fun it => tk = timeKeyOf it ∧ d = dayKey it ∧
          wk = pick_week_key it.week) := by
  induction l generalizing g with
  | nil => simp
  | cons a rest ih =>
    rw [List.foldl_cons, ih, List.filter_cons]
    by_cases h : tk = timeKeyOf a ∧ d = dayKey a ∧ wk = pick_week_key a.week
    · rw [insertGrid_pos g a tk d wk h, if_pos (decide_eq_true h)]
      simp [List.append_assoc]
    · rw [insertGrid_neg g a tk d wk h, if_neg (mt of_decide_eq_true h)]

theorem mem_dedupAux {α : Type} [DecidableEq α] (seen : List α)
    (l : List α) (x : α) (hx : x ∈ dedupAux seen l) : x ∈ l := by
  induction l generalizing seen with
  | nil => simp [dedupAux] at hx
  | cons t rest ih =>
    rw [dedupAux] at hx
    by_cases h : t ∈ seen
    · rw [if_pos h] at hx
      exact List.mem_cons_of_mem t (ih seen hx)
    · rw [if_neg h] at hx
      rcases List.mem_cons.mp hx with h1 | h1
      · exact h1 ▸ List.mem_cons_self t rest
      · exact List.mem_cons_of_mem t (ih (t :: seen) h1)

theorem mem_dedup {α : Type} [DecidableEq α] (l : List α) (x : α)
    (hx : x ∈ dedup l) : x ∈ l :=
  mem_dedupAux [] l x hx

theorem pick_week_key_mem (w : Option String) :
    pick_week_key w = "all" ∨ pick_week_key w = "ch" ∨
      pick_week_key w = "zn" := by
  simp only [pick_week_key]
  split
  · rename_i h
    rcases h with h | h
    · exact Or.inr (Or.inl h)
    · exact Or.inr (Or.inr h)
  · exact Or.inl rfl

/-- C5: grid construction is a partition. Every schedule item is a member of
the grid cell at its own `(time_key, day, week-bucket)` triple; membership
in a cell forces the item to come from the schedule and the cell's triple to
be exactly the item's, so no item sits in two cells; and every emitted row
carries day columns 1..7 in the fixed order, empty days included. -/
theorem C5_grid_partition (schedule : List SchedItem) :
    (∀ it ∈ schedule,
      it ∈ gridOf schedule (timeKeyOf it) (dayKey it)
        (pick_week_key it.week)) ∧
    (∀ (it : SchedItem) (tk : String × String × String) (d : Int)
      (wk : String), it ∈ gridOf schedule tk d wk →
        it ∈ schedule ∧ tk = timeKeyOf it ∧ d = dayKey it ∧
          wk = pick_week_key it.week) ∧
    (∀ r ∈ timetable_rows schedule, r.cells.map Prod.fst = dayOrder) ∧
    dayOrder = [1, 2, 3, 4, 5, 6, 7] := by
  refine ⟨?_, ?_, ?_, rfl⟩
  · intro it hit
    rw [gridOf, foldl_insertGrid, List.nil_append, List.mem_filter]
    exact ⟨(perm_pySorted itemLe schedule).mem_iff.mpr hit,
      decide_eq_true ⟨rfl, rfl, rfl⟩⟩
  · intro it tk d wk hmem
    rw [gridOf, foldl_insertGrid, List.nil_append, List.mem_filter] at hmem
    have h2 := of_decide_eq_true hmem.2
    exact ⟨(perm_pySorted itemLe schedule).mem_iff.mp hmem.1,
      h2.1, h2.2.1, h2.2.2⟩
  · intro r hr
    simp only [timetable_rows, List.mem_map] at hr
    obtain ⟨tk, htk, heq⟩ := hr
    rw [← heq]
    show (dayOrder.map (fun d => (d, cellAt schedule tk d))).map Prod.fst = dayOrder
    rw [List.map_map,
      show (Prod.fst ∘ fun d => (d, cellAt schedule tk d)) = id from rfl,
      List.map_id]

/-- A one-item schedule used as concrete input below. -/
def itemMon : SchedItem :=
  { day := some 1, time := some 1, startTime := some "08:30",
    endTime := some "10:05", week := some "ch" }

/-- Witness for C5: the single item of a one-item schedule is in the grid
cell at its own triple. -/
theorem C5_grid_partition_witness :
    itemMon ∈ [itemMon] ∧
      itemMon ∈ gridOf [itemMon] (timeKeyOf itemMon) (dayKey itemMon)
        (pick_week_key itemMon.week) :=
  ⟨List.mem_singleton.mpr rfl,
    (C5_grid_partition [itemMon]).1 itemMon (List.mem_singleton.mpr rfl)⟩

/-- An item whose week tag is the nonstandard "odd". -/
def itemOdd : SchedItem :=
  { day := some 1, time := some 1, startTime := some "10:15",
    endTime := some "11:50", week := some "odd" }

/-- C3 counterexample: a lesson tagged `week = "odd"` is not placed in the
"other" bucket with its tag preserved — `pick_week_key` maps the tag to
"all", the item lands in the "all" bucket of its cell, the "odd" bucket is
empty, and every rendered cell's "other" bucket is empty. -/
theorem C3_counterexample :
    pick_week_key (some "odd") = "all" ∧
      (timetable_rows [itemOdd]).all
        (fun r => r.cells.all (fun c => c.2.other.isEmpty)) = true ∧
      gridOf [itemOdd] ("10:15", "11:50", "1") 1 "all" = [itemOdd] ∧
      gridOf [itemOdd] ("10:15", "11:50", "1") 1 "odd" = [] := by
  refine ⟨?_, ?_, ?_, ?_⟩ <;> decide

/-- C3 (amended): any week tag that does not lower-case to "ch" or "zn" is
merged into the "all" bucket; `pick_week_key` only ever returns "all", "ch"
or "zn"; consequently the "other" bucket of every rendered cell is empty —
the catch-all branch is unreachable. -/
theorem C3_nonstandard_week_merged_to_all (schedule : List SchedItem)
    (s : String) (h1 : String.mk (s.data.map pyLowerChar) ≠ "ch")
    (h2 : String.mk (s.data.map pyLowerChar) ≠ "zn") :
    pick_week_key (some s) = "all" ∧
      (∀ w : Option String, pick_week_key w = "all" ∨
        pick_week_key w = "ch" ∨ pick_week_key w = "zn") ∧
      ∀ r ∈ timetable_rows schedule, ∀ c ∈ r.cells, c.2.other = [] := by
  refine ⟨?_, pick_week_key_mem, ?_⟩
  · by_cases hs : s = ""
    · subst hs
      decide
    · simp only [pick_week_key]
      rw [if_neg hs, if_neg (fun hor => Or.elim hor h1 h2)]
  · intro r hr c hc
    simp only [timetable_rows, List.mem_map] at hr
    obtain ⟨tk, htk, heq⟩ := hr
    rw [← heq] at hc
    simp only [List.mem_map] at hc
    obtain ⟨d, hd, hceq⟩ := hc
    rw [← hceq]
    simp only [cellAt]
    have hfil : (weekKeysAt (pySorted itemLe schedule) tk d).filter
        (fun wk => ¬(wk = "all" ∨ wk = "ch" ∨ wk = "zn") ∧
          gridOf schedule tk d wk ≠ []) = [] := by
      rw [List.filter_eq_nil_iff]
      intro wk hwk
      obtain ⟨it, hit, hkeq⟩ := List.mem_map.mp (mem_dedup _ _ hwk)
      subst hkeq
      intro hq
      exact (of_decide_eq_true hq).1 (pick_week_key_mem it.week)
    rw [hfil]
    rfl

/-- Witness for the amended C3 at the tag "odd". -/
theorem C3_nonstandard_week_merged_to_all_witness :
    String.mk (("odd").data.map pyLowerChar) ≠ "ch" ∧
      String.mk (("odd").data.map pyLowerChar) ≠ "zn" ∧
      pick_week_key (some "odd") = "all" :=
  ⟨by decide, by decide,
    (C3_nonstandard_week_merged_to_all [itemOdd] "odd"
      (by decide) (by decide)).1⟩

/-! ### `parse_dt` (`bmstu_teachers_tool.py`, lines 126-139) -/

/-- The result of `parse_dt`: a wall-clock datetime (already converted to
Moscow time in the UTC branch). -/
structure PyDateTime where
  year : Nat
  month : Nat
  day : Nat
  hour : Nat
  minute : Nat
  second : Nat
deriving DecidableEq

def isLeap (y : Nat) : Bool := (y % 4 == 0 && y % 100 != 0) || y % 400 == 0

def daysInMonth (y m : Nat) : Nat :=
  if m = 2 then (if isLeap y then 29 else 28)
  else if m = 4 ∨ m = 6 ∨ m = 9 ∨ m = 11 then 30 else 31

/-- The calendar validity `datetime.strptime` enforces (field ranges from
the format regex plus the `datetime` constructor's real-calendar check). -/
def validDT (d : PyDateTime) : Bool :=
  1 ≤ d.year && d.year ≤ 9999 && 1 ≤ d.month && d.month ≤ 12 &&
  1 ≤ d.day && d.day ≤ daysInMonth d.year d.month &&
  d.hour ≤ 23 && d.minute ≤ 59 && d.second ≤ 59

def digitVal (c : Char) : Option Nat :=
  if 48 ≤ c.toNat ∧ c.toNat ≤ 57 then some (c.toNat - 48) else none

def read2 : List Char → Option (Nat × List Char)
  | a :: b :: r =>
    match digitVal a, digitVal b with
    | some x, some y => some (10 * x + y, r)
    | _, _ => none
  | _ => none

def read4 (l : List Char) : Option (Nat × List Char) :=
  match read2 l with
  | some (x, r) =>
    match read2 r with
    | some (y, r') => some (100 * x + y, r')
    | none => none
  | none => none

/-- The fixed-width part of `strptime(value, "%Y%m%dT%H%M%S…")`:
four-digit year, two-digit month/day, a literal `T`, two-digit
hour/minute/second; returns the remaining characters. (The BMSTU feed
always emits the two-digit forms, so the one-digit variants `strptime`
would also admit are not modelled.) -/
def parseStamp (l : List Char) : Option (PyDateTime × List Char) :=
  match read4 l with
  | none => none
  | some (y, r1) =>
    match read2 r1 with
    | none => none
    | some (mo, r2) =>
      match read2 r2 with
      | none => none
      | some (d, r3) =>
        match r3 with
        | 'T' :: r4 =>
          match read2 r4 with
          | none => none
          | some (h, r5) =>
            match read2 r5 with
            | none => none
            | some (mi, r6) =>
              match read2 r6 with
              | none => none
              | some (se, r7) => some (⟨y, mo, d, h, mi, se⟩, r7)
        | _ => none

def nextDay (d : PyDateTime) : PyDateTime :=
  if d.day < daysInMonth d.year d.month then { d with day := d.day + 1 }
  else if d.month < 12 then { d with month := d.month + 1, day := 1 }
  else { d with year := d.year + 1, month := 1, day := 1 }

/-- `astimezone(MOSCOW)` on a UTC datetime: Europe/Moscow is UTC+3 for the
years the feed emits. -/
def toMoscow (d : PyDateTime) : PyDateTime :=
  if d.hour + 3 ≤ 23 then { d with hour := d.hour + 3 }
  else { nextDay d with hour := d.hour + 3 - 24 }

/-- `parse_dt` (lines 126-139): strip; a value ending in `Z` is parsed as
`%Y%m%dT%H%M%SZ` and shifted to Moscow time (a shift past year 9999
overflows inside `astimezone` and is caught, giving `None`); a bare 8-digit
date gives `None`; anything else is parsed as local `%Y%m%dT%H%M%S`;
any parse failure gives `None`. -/
def parse_dt (value : String) : Option PyDateTime :=
  let v := pyStrip value.data
  if v.getLast? = some 'Z' then
    match parseStamp v with
    | some (d, ['Z']) =>
      if validDT d then
        (if (toMoscow d).year ≤ 9999 then some (toMoscow d) else none)
      else none
    | _ => none
  else if v.length = 8 then none
  else
    match parseStamp v with
    | some (d, []) => if validDT d then some d else none
    | _ => none

/-- Days since 1970-01-01 of a civil date (floor-division form of the
standard civil-from-days inverse). -/
def daysFromCivil (y : Int) (m d : Nat) : Int :=
  let y' := if m ≤ 2 then y - 1 else y
  let era := y' / 400
  let yoe := y' - era * 400
  let mp := (Int.ofNat m + 9) % 12
  let doy := (153 * mp + 2) / 5 + Int.ofNat d - 1
  let doe := yoe * 365 + yoe / 4 - yoe / 100 + doy
  era * 146097 + doe - 719468

/-- Python's `datetime.weekday()`: Monday is 0; 1970-01-01 was a Thursday. -/
def pyWeekday (d : PyDateTime) : Nat :=
  ((daysFromCivil (Int.ofNat d.year) d.month d.day + 3) % 7).toNat

def RU_DOW : List String :=
  ["Понедельник", "Вторник", "Среда", "Четверг", "Пятница", "Суббота",
   "Воскресенье"]

def pad2 (n : Nat) : String := if n < 10 then "0" ++ toString n else toString n

/-- `strftime("%H:%M")`. -/
def fmtHM (d : PyDateTime) : String := pad2 d.hour ++ ":" ++ pad2 d.minute

example : parse_dt "20240208T071500Z" = some ⟨2024, 2, 8, 10, 15, 0⟩ := by
  decide

example : parse_dt " 20240208T071500 " = some ⟨2024, 2, 8, 7, 15, 0⟩ := by
  decide

example : parse_dt "20240208" = none := by decide

example : parse_dt "20241331T071500Z" = none := by decide

example : parse_dt "20241231T230000Z" = some ⟨2025, 1, 1, 2, 0, 0⟩ := by
  decide

example : pyWeekday ⟨2024, 2, 8, 10, 15, 0⟩ = 3 := by decide

example : pyWeekday ⟨1970, 1, 1, 0, 0, 0⟩ = 3 := by decide

example : pyWeekday ⟨2026, 10, 12, 0, 0, 0⟩ = 0 := by decide

/-! ### A backtracking regex engine for the three teacher patterns and
`TYPES_RE` (Python `re` semantics: leftmost search, greedy with
backtracking, alternation tried left to right) -/

/-- The regex fragments the source patterns use. Starred/plus/counted
repetition only ever applies to a character class in these patterns, so
repetition is over classes (`repCls p lo hi` is `p{lo,hi}`) plus the one
compound repetition `rep12` (`(...){1,2}`). -/
inductive RE where
  | eps
  | cls (p : Char → Bool)
  | seq (r₁ r₂ : RE)
  | alt (r₁ r₂ : RE)
  | opt (r : RE)
  | starCls (p : Char → Bool)
  | plusCls (p : Char → Bool)
  | repCls (p : Char → Bool) (lo hi : Nat)
  | rep12 (r : RE)
  | wordB
  | grp (r : RE)

/-- Python `\w` over the alphabets these inputs use: ASCII alphanumerics,
underscore, Cyrillic. -/
def isWordChar (c : Char) : Bool :=
  (48 ≤ c.toNat ∧ c.toNat ≤ 57) || (65 ≤ c.toNat ∧ c.toNat ≤ 90) ||
    (97 ≤ c.toNat ∧ c.toNat ≤ 122) || c = '_' ||
    (0x400 ≤ c.toNat ∧ c.toNat ≤ 0x4FF)

def charAt (s : List Char) (i : Nat) : Option Char := (s.drop i).head?

/-- `\b` at position `i` of `s`. -/
def atBoundary (s : List Char) (i : Nat) : Bool :=
  let prevW := if i = 0 then false else
    match charAt s (i - 1) with
    | some c => isWordChar c
    | none => false
  let curW := match charAt s i with
    | some c => isWordChar c
    | none => false
  prevW != curW

/-- The length of the maximal run of `p`-characters starting at `i`. -/
def runLen (p : Char → Bool) (s : List Char) (i : Nat) : Nat :=
  ((s.drop i).takeWhile p).length

/-- Greedy repetition count: try `n, n-1, …, lo` until the continuation
succeeds. -/
def tryCounts (k : Nat → Option (Nat × Option (Nat × Nat))) (lo : Nat) :
    Nat → Option (Nat × Option (Nat × Nat))
  | 0 => if lo = 0 then k 0 else none
  | n + 1 =>
    if lo ≤ n + 1 then
      match k (n + 1) with
      | some res => some res
      | none => tryCounts k lo n
    else none

/-- CPS backtracking matcher: match `r` at position `i` of `s` with the
group-1 span accumulated in `g`; the continuation receives the position and
span after `r`. Result: end of the whole match and the group-1 span. -/
def reMatch (s : List Char) : RE → Nat → Option (Nat × Nat) →
    (Nat → Option (Nat × Nat) → Option (Nat × Option (Nat × Nat))) →
    Option (Nat × Option (Nat × Nat))
  | RE.eps, i, g, k => k i g
  | RE.cls p, i, g, k =>
    match charAt s i with
    | some c => if p c then k (i + 1) g else none
    | none => none
  | RE.seq r₁ r₂, i, g, k =>
    reMatch s r₁ i g (fun j g' => reMatch s r₂ j g' k)
  | RE.alt r₁ r₂, i, g, k =>
    match reMatch s r₁ i g k with
    | some res => some res
    | none => reMatch s r₂ i g k
  | RE.opt r, i, g, k =>
    match reMatch s r i g k with
    | some res => some res
    | none => k i g
  | RE.starCls p, i, g, k => tryCounts (fun n => k (i + n) g) 0 (runLen p s i)
  | RE.plusCls p, i, g, k => tryCounts (fun n => k (i + n) g) 1 (runLen p s i)
  | RE.repCls p lo hi, i, g, k =>
    tryCounts (fun n => k (i + n) g) lo (min (runLen p s i) hi)
  | RE.rep12 r, i, g, k =>
    reMatch s r i g (fun j g' =>
      match reMatch s r j g' k with
      | some res => some res
      | none => k j g')
  | RE.wordB, i, g, k => if atBoundary s i then k i g else none
  | RE.grp r, i, g, k => reMatch s r i g (fun j _ => k j (some (i, j)))

/-- An anchored match attempt at position `i`. -/
def tryMatchAt (s : List Char) (r : RE) (i : Nat) :
    Option (Nat × Option (Nat × Nat)) :=
  reMatch s r i none (fun j g => some (j, g))

/-- Leftmost search from position `i` (fuel bounds the scan). -/
def searchAux (s : List Char) (r : RE) :
    Nat → Nat → Option (Nat × Nat × Option (Nat × Nat))
  | _, 0 => none
  | i, f + 1 =>
    match tryMatchAt s r i with
    | some (e, g) => some (i, e, g)
    | none => if i < s.length then searchAux s r (i + 1) f else none

/-- `re.search`: (start, end, group-1 span) of the leftmost match. -/
def reSearch (s : List Char) (r : RE) :
    Option (Nat × Nat × Option (Nat × Nat)) :=
  searchAux s r 0 (s.length + 1)

/-- `re.finditer`: non-overlapping leftmost matches (every pattern below
only matches nonempty text, so advancing to `max end (start+1)` is the
Python scan). -/
def finditerAux (s : List Char) (r : RE) :
    Nat → Nat → List (Nat × Nat × Option (Nat × Nat))
  | _, 0 => []
  | pos, f + 1 =>
    match searchAux s r pos (s.length + 1 - pos) with
    | none => []
    | some (st, e, g) => (st, e, g) :: finditerAux s r (max e (st + 1)) f

def finditer (s : List Char) (r : RE) :
    List (Nat × Nat × Option (Nat × Nat)) :=
  finditerAux s r 0 (s.length + 1)

def slice (s : List Char) (a b : Nat) : List Char := (s.drop a).take (b - a)

/-- `m.group(0)`. -/
def group0 (s : List Char) (m : Nat × Nat × Option (Nat × Nat)) :
    List Char :=
  slice s m.1 m.2.1

/-- `m.group(1)` (every use below has the group participate in the match). -/
def group1 (s : List Char) (m : Nat × Nat × Option (Nat × Nat)) :
    List Char :=
  match m.2.2 with
  | some (a, b) => slice s a b
  | none => []

def seqAll : List RE → RE
  | [] => RE.eps
  | [r] => r
  | r :: rest => RE.seq r (seqAll rest)

def altAll : List RE → RE
  | [] => RE.eps
  | [r] => r
  | r :: rest => RE.alt r (altAll rest)

def litC (c : Char) : RE := RE.cls (fun x => x == c)

def litStr (t : String) : RE := seqAll (t.data.map litC)

/-- A case-insensitive literal (for `TYPES_RE`'s `re.IGNORECASE`). -/
def litStrCI (t : String) : RE :=
  seqAll (t.data.map (fun c => RE.cls (fun x => pyLowerChar x == pyLowerChar c)))

/-! ### The concrete patterns and extractors (`bmstu_teachers_tool.py`,
lines 52-64, 141-150, 162-205) -/

/-- `[А-ЯЁ]`. -/
def clsRuUp (c : Char) : Bool :=
  (0x410 ≤ c.toNat ∧ c.toNat ≤ 0x42F) || c.toNat = 0x401

/-- `[а-яё\-]`. -/
def clsRuLoHy (c : Char) : Bool :=
  (0x430 ≤ c.toNat ∧ c.toNat ≤ 0x44F) || c.toNat = 0x451 || c = '-'

/-- `\d` (ASCII digits, the only ones in this data). -/
def clsDigit (c : Char) : Bool := 48 ≤ c.toNat ∧ c.toNat ≤ 57

/-- `[-–]`. -/
def clsDash (c : Char) : Bool := c = '-' || c = '–'

/-- `[А-Яа-яA-Za-z]`. -/
def clsRoomLetter (c : Char) : Bool :=
  (0x410 ≤ c.toNat ∧ c.toNat ≤ 0x42F) || (0x430 ≤ c.toNat ∧ c.toNat ≤ 0x44F)
    || (65 ≤ c.toNat ∧ c.toNat ≤ 90) || (97 ≤ c.toNat ∧ c.toNat ≤ 122)

/-- `[^:]`. -/
def clsNotColon (c : Char) : Bool := c ≠ ':'

/-- `[IVX]`. -/
def clsRoman (c : Char) : Bool := c = 'I' || c = 'V' || c = 'X'

/-- `(?:\s+[А-ЯЁ]\.\s*[А-ЯЁ]\.)` — one initials block. -/
def initialsPart : RE :=
  seqAll [RE.plusCls isPySpace, RE.cls clsRuUp, litC '.',
    RE.starCls isPySpace, RE.cls clsRuUp, litC '.']

/-- `[А-ЯЁ][а-яё\-]+` — one capitalized surname-like word. -/
def surnameRE : RE := RE.seq (RE.cls clsRuUp) (RE.plusCls clsRuLoHy)

/-- `RE_TEACHER_FROM_DESC` (lines 56-58). -/
def RE_TEACHER_FROM_DESC : RE :=
  RE.seq
    (RE.opt (seqAll [litStr "Преподаватель", RE.starCls clsNotColon,
      litC ':', RE.starCls isPySpace]))
    (RE.grp (seqAll [RE.cls clsRuUp, RE.plusCls clsRuLoHy,
      RE.opt initialsPart,
      RE.opt (RE.seq (RE.plusCls isPySpace) surnameRE)]))

/-- `RE_TEACHER_AFTER_ROOM` (lines 59-61). -/
def RE_TEACHER_AFTER_ROOM : RE :=
  seqAll [RE.wordB, RE.repCls clsDigit 1 2, RE.repCls clsDash 0 1,
    RE.repCls clsDigit 1 3, RE.repCls clsRoomLetter 0 1,
    RE.plusCls isPySpace, RE.grp (RE.seq surnameRE (RE.opt initialsPart))]

/-- `RE_FIO_INITIALS` (line 62). -/
def RE_FIO_INITIALS : RE :=
  seqAll [RE.wordB, RE.cls clsRuUp, RE.plusCls clsRuLoHy,
    RE.rep12 initialsPart, RE.wordB]

/-- `TYPES` (line 52). -/
def TYPES : List String :=
  ["лек.", "лек", "лаб.", "лаб", "пр.", "пр", "сем.", "сем", "конс.",
   "экз.", "зач.", "курс.пр."]

/-- `TYPES_RE` (line 53): `\b(…|…)\b` over the escaped `TYPES`, with
`re.IGNORECASE`. -/
def TYPES_RE : RE :=
  seqAll [RE.wordB, RE.grp (altAll (TYPES.map litStrCI)), RE.wordB]

/-- `\s+[IVX]+\s+`, the `re.split` pattern of `extract_subject`. -/
def romanSplitRE : RE :=
  seqAll [RE.plusCls isPySpace, RE.plusCls clsRoman, RE.plusCls isPySpace]

/-- Drop trailing characters of a given set. -/
def dropTrailIf (bad : Char → Bool) (l : List Char) : List Char :=
  (l.reverse.dropWhile bad).reverse

/-- Python `str.strip(chars)`. -/
def stripIf (bad : Char → Bool) (l : List Char) : List Char :=
  dropTrailIf bad (l.dropWhile bad)

/-- The strip set `" -–\u00a0"` of `extract_subject`. -/
def clsStripDash (c : Char) : Bool :=
  c = ' ' || c = '-' || c = '–' || c.toNat = 0xA0

/-- `extract_subject` (lines 141-148): text before the first lesson-type
tag, else before the first roman-numeral separator, stripped. -/
def extract_subject (summary : String) : String :=
  let s := pyStrip summary.data
  match reSearch s TYPES_RE with
  | some (st, _, _) => String.mk (stripIf clsStripDash (s.take st))
  | none =>
    match reSearch s romanSplitRE with
    | some (st, _, _) => String.mk (stripIf clsStripDash (s.take st))
    | none => String.mk (stripIf clsStripDash s)

/-- The strip set `",;:. "` of the candidate cleaning loop (line 190). -/
def clsPunctSp (c : Char) : Bool :=
  c = ',' || c = ';' || c = ':' || c = '.' || c = ' '

/-- Python `str.split()` (no separator: split on whitespace runs). -/
def splitWSF : Nat → List Char → List (List Char)
  | 0, _ => []
  | f + 1, l =>
    match l.dropWhile isPySpace with
    | [] => []
    | rest => rest.takeWhile (fun c => !isPySpace c) ::
        splitWSF f (rest.dropWhile (fun c => !isPySpace c))

def splitWS (l : List Char) : List (List Char) := splitWSF l.length l

/-- `re.match(r"^[А-ЯЁ][а-яё\-]+$", t)` as a Boolean (with `$` also
matching before one final newline, as in Python). -/
def ruWordMatch (l : List Char) : Bool :=
  let core := match l.getLast? with
    | some c => if c = Char.ofNat 10 then l.dropLast else l
    | none => l
  match core with
  | [] => false
  | c :: rest => clsRuUp c && !rest.isEmpty && rest.all clsRuLoHy

/-- `extract_teachers` (lines 162-205): candidates from the two DESCRIPTION
patterns (kept when the normalized name has ≥ 3 characters) and the two
SUMMARY patterns, each candidate normalized; then punctuation-stripped,
single words that are not a capitalized Russian word are discarded, and the
result is deduplicated preserving order. -/
def extract_teachers (description summary : String) : List String :=
  let d := description.data
  let su := summary.data
  let cand :=
    (if d.isEmpty then [] else
      ((finditer d RE_TEACHER_FROM_DESC).map
          (fun m => normList (group1 d m))).filter (fun v => 3 ≤ v.length) ++
        ((finditer d RE_FIO_INITIALS).map
          (fun m => normList (group0 d m))).filter (fun v => 3 ≤ v.length)) ++
    (if su.isEmpty then [] else
      (finditer su RE_TEACHER_AFTER_ROOM).map
          (fun m => normList (group1 su m)) ++
        (finditer su RE_FIO_INITIALS).map (fun m => normList (group0 su m)))
  let cleaned := (cand.map (stripIf clsPunctSp)).filter
    (fun t => !((splitWS t).length = 1 && !ruWordMatch t))
  (dedup cleaned).map String.mk

example :
    extract_teachers "Преподаватель: Иванов Иван Иванович" "" =
      ["Иванов Иван", "Иванович"] := by
  decide

example :
    extract_teachers "" "Математика лек. 230л Иванов И.И." =
      ["Иванов И.И"] := by
  decide

example : extract_teachers "кафедра ИУ3" "" = [] := by decide

example : extract_subject "Математика лек. 230л Иванов И.И." =
    "Математика" := by
  decide

example : extract_subject "Физика I подгруппа" = "Физика" := by decide

/-! ### `flush_event` (`bmstu_teachers_tool.py`, lines 232-265) and the
index built from parsed events -/

/-- The accumulated VEVENT fields (raw values of the `ev` dict; an absent
key reads as ""). -/
structure Event where
  summary : String
  description : String
  location : String
  dtstart : String
  dtend : String

/-- `flush_event`: drop the event when the stripped SUMMARY is empty or
either timestamp fails to parse; extract teachers from the stripped
DESCRIPTION and SUMMARY and drop the event when none are found; otherwise
emit one `Lesson` per teacher. -/
def flush_event (group_code : String) (e : Event) : List Lesson :=
  match parse_dt e.dtstart, parse_dt e.dtend with
  | some ds, some de =>
    if pyStrip e.summary.data = [] then []
    else
      if extract_teachers (String.mk (pyStrip e.description.data))
          (String.mk (pyStrip e.summary.data)) = [] then []
      else
        (extract_teachers (String.mk (pyStrip e.description.data))
            (String.mk (pyStrip e.summary.data))).map (fun t =>
          { group := group_code,
            subject := extract_subject (String.mk (pyStrip e.summary.data)),
            day := RU_DOW.getD (pyWeekday ds) "",
            time := fmtHM ds ++ "–" ++ fmtHM de,
            room := if pyStrip e.location.data = [] then none
              else some (String.mk (pyStrip e.location.data)),
            teacher := t })
  | _, _ => []

/-- The teacher index built from one calendar's events: the lessons flushed
per event, in order, fed to the `build_index` loop. -/
def eventsIndex (group_code : String) (evs : List Event) :
    String → List Entry :=
  buildIndexL ((evs.map (flush_event group_code)).flatten)

/-- C6: the calendar event parser drops invalid events. An event whose
stripped SUMMARY is empty, whose DTSTART or DTEND does not parse, or from
which no teacher name is extracted flushes to no `Lesson` at all, and the
index built from any event list containing such an event equals the index
built without it — in particular an event missing a parseable end time is
never present, directly or indirectly, in the resulting index. -/
theorem C6_invalid_events_dropped (g : String) (e : Event)
    (pre post : List Event)
    (h : pyStrip e.summary.data = [] ∨ parse_dt e.dtstart = none ∨
      parse_dt e.dtend = none ∨
      extract_teachers (String.mk (pyStrip e.description.data))
        (String.mk (pyStrip e.summary.data)) = []) :
    flush_event g e = [] ∧
      ∀ k, eventsIndex g (pre ++ e :: post) k = eventsIndex g (pre ++ post) k := by
  have hf : flush_event g e = [] := by
    simp only [flush_event]
    rcases hds : parse_dt e.dtstart with _ | ds
    · rfl
    · rcases hde : parse_dt e.dtend with _ | de
      · rfl
      · rcases h with hsum | hds' | hde' | ht
        · simp [hsum]
        · rw [hds] at hds'
          simp at hds'
        · rw [hde] at hde'
          simp at hde'
        · by_cases hsum : pyStrip e.summary.data = []
          · simp [hsum]
          · simp [hsum, ht]
  refine ⟨hf, ?_⟩
  intro k
  have hflat : ((pre ++ e :: post).map (flush_event g)).flatten =
      ((pre ++ post).map (flush_event g)).flatten := by
    simp [hf]
  rw [eventsIndex, eventsIndex, hflat]

/-- A concrete event whose DTEND is a bare 8-digit date, which `parse_dt`
rejects. -/
def evNoEnd : Event :=
  { summary := "Математика лек. 230л Иванов И.И.",
    description := "Преподаватель: Иванов Иван Иванович",
    location := "230л",
    dtstart := "20240208T071500Z",
    dtend := "20240208" }

/-- Witness for C6: `evNoEnd` has no parseable end time and flushes to
nothing. -/
theorem C6_invalid_events_dropped_witness :
    parse_dt evNoEnd.dtend = none ∧ flush_event "ИУ3-45Б" evNoEnd = [] :=
  ⟨by decide,
    (C6_invalid_events_dropped "ИУ3-45Б" evNoEnd [] []
      (Or.inr (Or.inr (Or.inl (by decide))))).1⟩

example :
    flush_event "ИУ3-45Б"
      { summary := "Математика лек. 230л Иванов И.И.",
        description := "Преподаватель: Иванов Иван Иванович",
        location := "230л",
        dtstart := "20240208T071500Z", dtend := "20240208T084500Z" } =
    [{ group := "ИУ3-45Б", subject := "Математика", day := "Четверг",
       time := "10:15–11:45", room := some "230л", teacher := "Иванов Иван" },
     { group := "ИУ3-45Б", subject := "Математика", day := "Четверг",
       time := "10:15–11:45", room := some "230л", teacher := "Иванович" },
     { group := "ИУ3-45Б", subject := "Математика", day := "Четверг",
       time := "10:15–11:45", room := some "230л",
       teacher := "Иванов И.И" }] := by
  decide

end BMSTU
